import Mathlib

/-!
Verification development for the Blackout Secure web-application-manifest
generator.  The JavaScript sources are shallowly embedded: strings are
`List Char`, the manifest-link regular expression
`/<link\s+rel=["']manifest["'][^>]*>/gi` is modelled as an explicit
deterministic character automaton, `String.prototype.replace` is modelled
including its `$`-substitution rules, and the filesystem is an abstract
oracle record.
-/

namespace Bos

/-- Model of the ECMAScript `\s` character class (WhiteSpace ∪ LineTerminator),
by code point. -/
def jsSpace (c : Char) : Bool :=
  let n := c.toNat
  n == 9 || n == 10 || n == 11 || n == 12 || n == 13 || n == 32 || n == 160 ||
  n == 0x1680 || (0x2000 ≤ n && n ≤ 0x200a) || n == 0x2028 || n == 0x2029 ||
  n == 0x202f || n == 0x205f || n == 0x3000 || n == 0xfeff

/-- ASCII lower-casing, the case folding relevant to the liiteral ASCII
patterns of the source's case-insensitive regexes (without the `u` flag,
non-ASCII characters never fold onto ASCII pattern letters). -/
def jsLower (c : Char) : Char :=
  if 65 ≤ c.toNat && c.toNat ≤ 90 then Char.ofNat (c.toNat + 32) else c

/-- Case-insensitive character comparison used by the `i` regex flag. -/
def ciEq (a b : Char) : Bool := jsLower a == jsLower b

/-- Either attribute-value delimiter tolerated by the regex (`["']`). -/
def isQuote (c : Char) : Bool := c == '"' || c == '\''

/-- Model of `String.prototype.trim` (strips `\s`-class characters at both
ends). -/
def jsTrim (s : List Char) : List Char :=
  ((s.dropWhile jsSpace).reverse.dropWhile jsSpace).reverse

/-- ASCII lower-casing of a whole string (`String.prototype.toLowerCase` on
the ASCII inputs the enumeration checks deal with). -/
def jsLowerStr (s : List Char) : List Char := s.map jsLower

/-- Transition function of the deterministic automaton recognising the
anchored pattern `<link\s+rel=["']manifest["']` case-insensitively.
States 0-4 consume `<link`, state 5 demands one whitespace, state 6 absorbs
further whitespace until `r`, states 7-9 consume `el=`, state 10 a quote,
states 11-18 consume `manifest`, state 19 the closing quote; 20 accepts. -/
def pmStep (st : Nat) (c : Char) : Option Nat :=
  match st with
  | 0 => if c == '<' then some 1 else none
  | 1 => if ciEq c 'l' then some 2 else none
  | 2 => if ciEq c 'i' then some 3 else none
  | 3 => if ciEq c 'n' then some 4 else none
  | 4 => if ciEq c 'k' then some 5 else none
  | 5 => if jsSpace c then some 6 else none
  | 6 => if jsSpace c then some 6 else if ciEq c 'r' then some 7 else none
  | 7 => if ciEq c 'e' then some 8 else none
  | 8 => if ciEq c 'l' then some 9 else none
  | 9 => if c == '=' then some 10 else none
  | 10 => if isQuote c then some 11 else none
  | 11 => if ciEq c 'm' then some 12 else none
  | 12 => if ciEq c 'a' then some 13 else none
  | 13 => if ciEq c 'n' then some 14 else none
  | 14 => if ciEq c 'i' then some 15 else none
  | 15 => if ciEq c 'f' then some 16 else none
  | 16 => if ciEq c 'e' then some 17 else none
  | 17 => if ciEq c 's' then some 18 else none
  | 18 => if ciEq c 't' then some 19 else none
  | 19 => if isQuote c then some 20 else none
  | _ => none

/-- Runs the automaton over a string: stops in the accepting state with the
unconsumed remainder, stops with the reached state when the input is
exhausted, or fails on a dead transition. -/
def pmConsume (st : Nat) : List Char → Option (Nat × List Char)
  | [] => some (st, [])
  | c :: cs =>
    if st == 20 then some (20, c :: cs)
    else
      match pmStep st c with
      | some st2 => pmConsume st2 cs
      | none => none

/-- Anchored match of the structural head `<link\s+rel=["']manifest["']`;
returns the remainder on acceptance. -/
def pmRun (s : List Char) : Option (List Char) :=
  match pmConsume 0 s with
  | some (st, r) => if st == 20 then some r else none
  | none => none

/-- Anchored match of the whole manifest-link regex
`<link\s+rel=["']manifest["'][^>]*>` at the start of `s`; the greedy
`[^>]*>` tail runs to the first `>`.  Returns the matched text and the
remainder. -/
def linkMatchAt (s : List Char) : Option (List Char × List Char) :=
  match pmRun s with
  | none => none
  | some s5 =>
    match s5.dropWhile (fun c => !(c == '>')) with
    | [] => none
    | _ :: r => some (s.take (s.length - r.length), r)

/-- Model of ECMAScript `GetSubstitution` for a replacement string of a
regex without capture groups: `$$`, `$&`, `` $` `` and `$'` are the
recognised escapes, everything else is literal. -/
def expandRepl : List Char → List Char → List Char → List Char → List Char
  | [], _, _, _ => []
  | c :: ts, m, pre, post =>
    if c == '$' then
      match ts with
      | [] => ['$']
      | d :: ts2 =>
        if d == '$' then '$' :: expandRepl ts2 m pre post
        else if d == '&' then m ++ expandRepl ts2 m pre post
        else if d == Char.ofNat 96 then pre ++ expandRepl ts2 m pre post
        else if d == '\'' then post ++ expandRepl ts2 m pre post
        else '$' :: expandRepl (d :: ts2) m pre post
    else c :: expandRepl ts m pre post

/-- Worker for global regex replacement (`content.replace(regex, tmpl)` with
the `g` flag): scans left to right, replaces each non-overlapping match by
the expanded template and resumes after it.  `pre` accumulates the original
text before the current position (for `` $` ``); `fuel` bounds recursion and
is instantiated with the string length. -/
def replaceAllGo (tmpl : List Char) : Nat → List Char → List Char → List Char
  | 0, _, _ => []
  | _ + 1, _, [] => []
  | fuel + 1, pre, c :: cs =>
    match linkMatchAt (c :: cs) with
    | some (m, rest) => expandRepl tmpl m pre rest ++ replaceAllGo tmpl fuel (pre ++ m) rest
    | none => c :: replaceAllGo tmpl fuel (pre ++ [c]) cs

/-- Global replacement of every manifest-link match by the template. -/
def replaceAllLink (tmpl s : List Char) : List Char := replaceAllGo tmpl s.length [] s

/-- Whether the manifest-link regex matches anywhere (the `found` flag of
`findManifestLink`). -/
def hasLinkTag : List Char → Bool
  | [] => false
  | c :: cs => (linkMatchAt (c :: cs)).isSome || hasLinkTag cs

/-- Worker for the list of global matches (`content.match(regex)`). -/
def linkMatchesGo : Nat → List Char → List (List Char)
  | 0, _ => []
  | _ + 1, [] => []
  | fuel + 1, c :: cs =>
    match linkMatchAt (c :: cs) with
    | some (m, rest) => m :: linkMatchesGo fuel rest
    | none => linkMatchesGo fuel cs

/-- List of matched substrings of the manifest-link regex, in scan order. -/
def linkMatches (s : List Char) : List (List Char) := linkMatchesGo s.length s

/-- Statement that no position inside `a` starts a regex match when `a` is
followed by the continuation `y`: the scan of `a ++ y` passes through all of
`a`. -/
def noScanMatch : List Char → List Char → Prop
  | [], _ => True
  | c :: cs, y => linkMatchAt (c :: (cs ++ y)) = none ∧ noScanMatch cs y

/-- Case-insensitively strips the literal `pat` from the front of `s`. -/
def stripCI : List Char → List Char → Option (List Char)
  | [], s => some s
  | _ :: _, [] => none
  | p :: ps, c :: cs => if ciEq p c then stripCI ps cs else none

/-- First case-insensitive occurrence of `</head>` (the `/<\/head>/i`
search): returns the text before it, the matched text and the text after. -/
def headFind : List Char → Option (List Char × List Char × List Char)
  | [] => none
  | c :: cs =>
    match stripCI "</head>".data (c :: cs) with
    | some rest => some ([], (c :: cs).take 7, rest)
    | none =>
      match headFind cs with
      | some (a, h, b) => some (c :: a, h, b)
      | none => none

/-- Anchored match of `/<html[^>]*>/i` at the start of `s`. -/
def htmlMatchAt (s : List Char) : Option (List Char × List Char) :=
  match stripCI "<html".data s with
  | none => none
  | some s1 =>
    match s1.dropWhile (fun c => !(c == '>')) with
    | [] => none
    | _ :: r => some (s.take (s.length - r.length), r)

/-- First match of `/<html[^>]*>/i`: text before, matched text, text after. -/
def htmlFind : List Char → Option (List Char × List Char × List Char)
  | [] => none
  | c :: cs =>
    match htmlMatchAt (c :: cs) with
    | some (m, rest) => some ([], m, rest)
    | none =>
      match htmlFind cs with
      | some (a, m, b) => some (c :: a, m, b)
      | none => none

/-- Embedding of `normalizePath` from `utils.js`: replace every backslash by
a forward slash. -/
def normalizePath (s : List Char) : List Char :=
  s.map fun c => if c == '\\' then '/' else c

/-- The `href` attribute value built by `generateManifestLink`: a separator
prepended to the normalized filename. -/
def hrefValue (filename : List Char) : List Char := '/' :: normalizePath filename

/-- Embedding of `generateManifestLink` from `page-injector.js` (current
variant): the canonical tag
`<link rel="manifest" href="/<normalized filename>"[ crossorigin="use-credentials"]>`. -/
def generateManifestLink (filename : List Char) (useCredentials : Bool) : List Char :=
  "<link rel=\"manifest\" href=\"".data ++ hrefValue filename ++ ['"'] ++
    (if useCredentials then " crossorigin=\"use-credentials\"".data else []) ++ ['>']

/-- Embedding of `updateManifestLink`: replace every regex match by the
freshly generated canonical tag. -/
def updateManifestLink (content filename : List Char) (useCredentials : Bool) : List Char :=
  replaceAllLink (generateManifestLink filename useCredentials) content

/-- Embedding of `injectManifestLink` (current variant): update when a tag
exists, else insert before the first `</head>`, else wrap a synthetic head
after the first `<html...>`, else prepend. -/
def injectManifestLink (content filename : List Char) (useCredentials : Bool) : List Char :=
  if hasLinkTag content then updateManifestLink content filename useCredentials
  else
    let newLink := generateManifestLink filename useCredentials
    match headFind content with
    | some (a, h, b) =>
      a ++ expandRepl (' ' :: ' ' :: (newLink ++ '\n' :: "</head>".data)) h a b ++ b
    | none =>
      match htmlFind content with
      | some (a, m, b) =>
        a ++ m ++ '\n' :: ("<head>".data ++ '\n' :: ' ' :: ' ' ::
          (newLink ++ '\n' :: ("</head>".data ++ b)))
      | none => newLink ++ '\n' :: content

/-! Manifest construction (`manifest-generator.js`, current variant, with
`project-config.js` version 1.0.3 constants). -/

/-- Icon input record (`IconInput`): all members optional strings. -/
structure IconIn where
  src : Option (List Char) := none
  sizes : Option (List Char) := none
  type : Option (List Char) := none
  purpose : Option (List Char) := none
deriving DecidableEq

/-- Normalized icon record (`IconDescriptor`) as emitted by `processIcons`. -/
structure IconOut where
  src : List Char
  sizes : Option (List Char) := none
  type : Option (List Char) := none
  purpose : Option (List Char) := none
deriving DecidableEq

/-- Shortcut input record (`ShortcutInput`). -/
structure ShortcutIn where
  name : Option (List Char) := none
  url : Option (List Char) := none
  short_name : Option (List Char) := none
  description : Option (List Char) := none
  icons : Option (List IconIn) := none
deriving DecidableEq

/-- Normalized shortcut record as emitted by `processShortcuts`. -/
structure ShortcutOut where
  name : List Char
  url : List Char
  short_name : Option (List Char) := none
  description : Option (List Char) := none
  icons : Option (List IconOut) := none
deriving DecidableEq

/-- Caller-supplied configuration (`ManifestConfig`); string-valued members
are modelled as optional strings (`none` = absent or non-string). -/
structure ManifestConfig where
  name : Option (List Char) := none
  short_name : Option (List Char) := none
  description : Option (List Char) := none
  start_url : Option (List Char) := none
  id : Option (List Char) := none
  scope : Option (List Char) := none
  display : Option (List Char) := none
  orientation : Option (List Char) := none
  theme_color : Option (List Char) := none
  background_color : Option (List Char) := none
  lang : Option (List Char) := none
  dir : Option (List Char) := none
  icons : Option (List IconIn) := none
  shortcuts : Option (List ShortcutIn) := none
  categories : Option (List (List Char)) := none
deriving DecidableEq

/-- Assembled manifest document; `Option` fields model keys that may be
absent. -/
structure Manifest where
  name : List Char
  short_name : List Char
  description : Option (List Char)
  start_url : List Char
  id : Option (List Char)
  scope : List Char
  display : Option (List Char)
  orientation : Option (List Char)
  theme_color : List Char
  background_color : List Char
  lang : Option (List Char)
  dir : Option (List Char)
  icons : List IconOut
  shortcuts : Option (List ShortcutOut)
  categories : Option (List (List Char))
deriving DecidableEq

/-- Allowed `display` values (`config.validation.displayModes`). -/
def displayModes : List (List Char) :=
  ["fullscreen".data, "standalone".data, "minimal-ui".data, "browser".data]

/-- Allowed `orientation` values (`config.validation.orientations`). -/
def orientations : List (List Char) :=
  ["any".data, "natural".data, "landscape".data, "portrait".data,
   "portrait-primary".data, "portrait-secondary".data,
   "landscape-primary".data, "landscape-secondary".data]

/-- Allowed `dir` values (`config.validation.textDirections`). -/
def textDirections : List (List Char) := ["ltr".data, "rtl".data, "auto".data]

/-- Allowed icon purposes (`config.validation.iconPurposes`). -/
def iconPurposes : List (List Char) :=
  ["monochrome".data, "maskable".data, "any".data]

/-- Built-in default icon set (`config.defaults.icons`, version 1.0.3). -/
def defaultIcons : List IconIn :=
  [{ src := some "/android-chrome-192x192.png".data, sizes := some "192x192".data,
     type := some "image/png".data, purpose := some "maskable".data },
   { src := some "/android-chrome-256x256.png".data, sizes := some "256x256".data,
     type := some "image/png".data, purpose := some "maskable".data },
   { src := some "/android-chrome-512x512.png".data, sizes := some "512x512".data,
     type := some "image/png".data, purpose := some "maskable".data }]

/-- JavaScript truthiness of an optional string member (`undefined` and the
empty string are falsy). -/
def truthyStr (v : Option (List Char)) : Bool :=
  match v with
  | some s => !s.isEmpty
  | none => false

/-- Embedding of `safeString` from `utils.js`: trim a string value, empty
fallback otherwise. -/
def safeString (v : Option (List Char)) : List Char :=
  match v with
  | some s => jsTrim s
  | none => []

/-- Embedding of `validateEnum` from `utils.js`: lower-case the value and
check membership; falsy or invalid values yield the fallback. -/
def validateEnum (value : Option (List Char)) (allowed : List (List Char))
    (fallback : Option (List Char)) : Option (List Char) :=
  match value with
  | some v =>
    if !v.isEmpty && allowed.contains (jsLowerStr v) then some (jsLowerStr v) else fallback
  | none => fallback

/-- Embedding of the `processStringMember` helper of `processManifest`
(always called with trimming on): trimmed value when non-empty, else the
default. -/
def processStringMember (value : Option (List Char)) (dflt : List Char) : List Char :=
  match value with
  | some v => if !(jsTrim v).isEmpty then jsTrim v else dflt
  | none => dflt

/-- Embedding of the `processUrlMember` helper of `processManifest`. -/
def processUrlMember (value : Option (List Char)) (dflt : List Char) : List Char :=
  match value with
  | some v => if !(jsTrim v).isEmpty then jsTrim v else dflt
  | none => dflt

/-- Worker splitting a string on whitespace runs into words. -/
def wordsWsGo : List Char → List Char → List (List Char)
  | [], acc => if acc.isEmpty then [] else [acc.reverse]
  | c :: cs, acc =>
    if jsSpace c then
      if acc.isEmpty then wordsWsGo cs [] else acc.reverse :: wordsWsGo cs []
    else wordsWsGo cs (c :: acc)

/-- Model of `split(/\s+/)` restricted to its non-empty tokens (the empty
boundary artifacts JavaScript may produce are always discarded by the
membership filter applied to the result). -/
def wordsWs (s : List Char) : List (List Char) := wordsWsGo s []

/-- Model of `Array.prototype.join(' ')`. -/
def joinWords : List (List Char) → List Char
  | [] => []
  | [w] => w
  | w :: ws => w ++ ' ' :: joinWords ws

/-- Embedding of the `normalizeIconPath` closure of `processIcons` (the
IconPathResolver): trim, return unchanged on empty source or empty
directory, otherwise strip one leading separator from the source, give the
directory a leading separator when missing, strip one trailing separator,
and concatenate. -/
def normalizeIconPath (src dir : List Char) : List Char :=
  let cleanSrc := jsTrim src
  if cleanSrc.isEmpty then cleanSrc
  else if dir.isEmpty then cleanSrc
  else
    let srcNoLead := if cleanSrc.head? == some '/' then cleanSrc.tail else cleanSrc
    let nd := if dir.head? == some '/' then dir else '/' :: dir
    let nd2 := if nd.getLast? == some '/' then nd.dropLast else nd
    nd2 ++ '/' :: srcNoLead

/-- Embedding of `processIcons` (current variant): drop entries with a falsy
`src`, resolve the path, keep `sizes`/`type` when truthy (trimmed), and
filter the `purpose` token list. -/
def processIcons (icons : List IconIn) (iconsDir : List Char) : List IconOut :=
  (icons.filter fun i => truthyStr i.src).map fun i =>
    { src := normalizeIconPath (i.src.getD []) iconsDir
      sizes := match i.sizes with
        | some s => if s.isEmpty then none else some (jsTrim s)
        | none => none
      type := match i.type with
        | some s => if s.isEmpty then none else some (jsTrim s)
        | none => none
      purpose := match i.purpose with
        | some p =>
          if p.isEmpty then none
          else
            let ps := (wordsWs (jsLowerStr p)).filter fun w => iconPurposes.contains w
            if ps.isEmpty then none else some (joinWords ps)
        | none => none }

/-- Embedding of `processShortcuts` (current variant): keep entries whose
`name` and `url` are strings with non-empty trims; normalize members and
recursively the nested icons. -/
def processShortcuts (shortcuts : List ShortcutIn) (iconsDir : List Char) : List ShortcutOut :=
  (shortcuts.filter fun s =>
    match s.name, s.url with
    | some n, some u => !(jsTrim n).isEmpty && !(jsTrim u).isEmpty
    | _, _ => false).map fun s =>
    { name := safeString s.name
      url := safeString s.url
      short_name := match s.short_name with
        | some v => if v.isEmpty then none else some (jsTrim v)
        | none => none
      description := match s.description with
        | some v => if v.isEmpty then none else some (jsTrim v)
        | none => none
      icons := s.icons.map fun l => processIcons l iconsDir }

/-- Embedding of `processManifest` (current variant) over the 1.0.3 default
table. -/
def processManifest (cfg : ManifestConfig) (iconsDir : List Char) : Manifest :=
  { name := processStringMember cfg.name []
    short_name := processStringMember cfg.short_name []
    description := match cfg.description with
      | some v => if !(jsTrim v).isEmpty then some (jsTrim v) else none
      | none => none
    start_url := processUrlMember cfg.start_url "/".data
    id := match cfg.id with
      | some v => if !(jsTrim v).isEmpty then some (jsTrim v) else none
      | none => none
    scope := processUrlMember cfg.scope "/".data
    display := validateEnum cfg.display displayModes (some "standalone".data)
    orientation := validateEnum cfg.orientation orientations (some "any".data)
    theme_color := processStringMember cfg.theme_color "#ffffff".data
    background_color := processStringMember cfg.background_color "#ffffff".data
    lang := match cfg.lang with
      | some v => if !(jsTrim v).isEmpty then some (jsTrim v) else none
      | none => none
    dir := match cfg.dir with
      | some v => if v.isEmpty then none else validateEnum (some v) textDirections none
      | none => none
    icons := match cfg.icons with
      | some l => if l.isEmpty then processIcons defaultIcons iconsDir else processIcons l iconsDir
      | none => processIcons defaultIcons iconsDir
    shortcuts := cfg.shortcuts.map fun l => processShortcuts l iconsDir
    categories := cfg.categories.map fun l =>
      (l.filter fun c => !(jsTrim c).isEmpty).map jsTrim }

/-! Asset existence check (`icon-validator.js`). -/

/-- Record of one checked icon (`checkedFiles` entry). -/
structure CheckedFile where
  src : List Char
  path : List Char
  sizes : List Char
  type : List Char
  fileExists : Bool
deriving DecidableEq

/-- Record of one missing icon (`missing` entry). -/
structure MissingFile where
  src : List Char
  path : List Char
  sizes : List Char
  type : List Char
deriving DecidableEq

/-- Result record of `validateIcons`. -/
structure AssetCheckResult where
  valid : Bool
  missing : List MissingFile
  checked : Nat
  checkedFiles : List CheckedFile
deriving DecidableEq

/-- JavaScript `value || 'unspecified'` on an optional string member. -/
def orUnspecified (v : Option (List Char)) : List Char :=
  match v with
  | some s => if s.isEmpty then "unspecified".data else s
  | none => "unspecified".data

/-- Model of Node `path.join` on two segments: concatenation with a single
separator (empty segments ignored; dot-segment and duplicate-separator
normalization omitted). -/
def pathJoin (a b : List Char) : List Char :=
  if a.isEmpty then b
  else if b.isEmpty then a
  else if a.getLast? == some '/' then a ++ b
  else a ++ '/' :: b

/-- Strips one leading separator (`src.startsWith('/') ? src.slice(1) : src`). -/
def stripLeadSlash (s : List Char) : List Char :=
  if s.head? == some '/' then s.tail else s

/-- Per-icon step of `validateIcons` (the `forEach` body): skip falsy `src`,
join the stripped source with the base directory, test existence, record the
outcome. -/
def validateIconsStep (fsExists : List Char → Bool) (baseDir : List Char)
    (r : AssetCheckResult) (icon : IconIn) : AssetCheckResult :=
  if !truthyStr icon.src then r
  else
    let srcv := icon.src.getD []
    let fullPath := pathJoin baseDir (stripLeadSlash srcv)
    let ex := fsExists fullPath
    let r2 : AssetCheckResult :=
      { r with checked := r.checked + 1
               checkedFiles := r.checkedFiles ++
                 [⟨srcv, fullPath, orUnspecified icon.sizes, orUnspecified icon.type, ex⟩] }
    if ex then r2
    else { r2 with valid := false
                   missing := r2.missing ++
                     [⟨srcv, fullPath, orUnspecified icon.sizes, orUnspecified icon.type⟩] }

/-- Embedding of `validateIcons` from `icon-validator.js`; the filesystem is
an abstract existence oracle.  The function takes no icons-directory
argument (its JavaScript declaration has only `icons` and `baseDir`). -/
def validateIcons (fsExists : List Char → Bool) (icons : Option (List IconIn))
    (baseDir : List Char) : AssetCheckResult :=
  let init : AssetCheckResult := ⟨true, [], 0, []⟩
  match icons with
  | none => init
  | some l => if l.isEmpty then init else l.foldl (validateIconsStep fsExists baseDir) init

/-! Batch page processing (`page-injector.js`, current variant). -/

/-- Abstract synchronous filesystem oracle for `processPageFiles`; fallible
operations return `Except` with the exception message. -/
structure FS where
  existsSync : List Char → Bool
  readdir : List Char → Except (List Char) (List (List Char))
  statIsDir : List Char → Except (List Char) Bool
  readFile : List Char → Except (List Char) (List Char)
  writeFile : List Char → List Char → Except (List Char) Unit

/-- Entry of the `details` sequence. -/
structure PageDetail where
  file : List Char
  status : List Char
  message : List Char
deriving DecidableEq

/-- Result record of `processPageFiles`. -/
structure PageResults where
  injected : Nat
  skipped : Nat
  errors : List (List Char × List Char)
  files : List (List Char)
  details : List PageDetail
deriving DecidableEq

/-- The freshly initialized result record. -/
def emptyResults : PageResults := ⟨0, 0, [], [], []⟩

/-- Componentwise combination of result records (count addition and list
concatenation), the effect of accumulating one delta after another. -/
def mergeResults (a b : PageResults) : PageResults :=
  ⟨a.injected + b.injected, a.skipped + b.skipped, a.errors ++ b.errors,
   a.files ++ b.files, a.details ++ b.details⟩

/-- Delta recorded by the per-file `catch` handler. -/
def errDelta (p msg : List Char) : PageResults :=
  ⟨0, 0, [(p, msg)], [], [⟨p, "error".data, msg⟩]⟩

/-- Model of `path.extname(file).toLowerCase().slice(1)`: the lower-cased
extension of the basename without its dot, empty when the basename has no
dot past its first character. -/
def extnameLower (file : List Char) : List Char :=
  let base := (file.reverse.takeWhile fun c => !(c == '/')).reverse
  let after := base.reverse.takeWhile fun c => !(c == '.')
  if after.length + 2 ≤ base.length then jsLowerStr after.reverse else []

/-- Per-entry body of the `forEach` in `processPageFiles` (current variant):
stat, skip directories and foreign extensions, read, inject, write back only
on change; any thrown operation yields the error delta. -/
def handleEntry (fs : FS) (dirPath : List Char) (exts : List (List Char))
    (filename : List Char) (useCredentials : Bool) (file : List Char) : PageResults :=
  let filePath := pathJoin dirPath file
  match fs.statIsDir filePath with
  | .error msg => errDelta filePath msg
  | .ok isDir =>
    if isDir then emptyResults
    else if !(exts.contains (extnameLower file)) then emptyResults
    else
      match fs.readFile filePath with
      | .error msg => errDelta filePath msg
      | .ok content =>
        let updated := injectManifestLink content filename useCredentials
        if updated == content then
          ⟨0, 1, [], [], [⟨filePath, "skipped".data, "Manifest link already present".data⟩]⟩
        else
          match fs.writeFile filePath updated with
          | .error msg => errDelta filePath msg
          | .ok _ =>
            ⟨1, 0, [], [filePath], [⟨filePath, "injected".data, "Manifest link injected".data⟩]⟩

/-- Accumulation of the per-entry deltas over a directory listing. -/
def batchEntries (fs : FS) (dirPath : List Char) (exts : List (List Char))
    (filename : List Char) (useCredentials : Bool) (l : List (List Char)) : PageResults :=
  l.foldl (fun acc f => mergeResults acc (handleEntry fs dirPath exts filename useCredentials f))
    emptyResults

/-- Embedding of `processPageFiles` (current variant): missing directory
yields the freshly initialized record; a failing listing records one
directory-level error; otherwise every entry is processed. -/
def processPageFiles (fs : FS) (dirPath : List Char) (exts : List (List Char))
    (filename : List Char) (useCredentials : Bool) : PageResults :=
  if !fs.existsSync dirPath then emptyResults
  else
    match fs.readdir dirPath with
    | .error msg => ⟨0, 0, [(dirPath, msg)], [], []⟩
    | .ok files => batchEntries fs dirPath exts filename useCredentials files

/-! Spec-worded comparison definitions (for refinement claims). -/

/-- Reference-tag text as worded by the claim: exactly
`<link rel="manifest" href="/{filename}">`, with the credentials attribute
when requested, the filename inserted verbatim. -/
def claimReferenceTag (filename : List Char) (useCredentials : Bool) : List Char :=
  "<link rel=\"manifest\" href=\"/".data ++ filename ++ "\"".data ++
    (if useCredentials then " crossorigin=\"use-credentials\"".data else []) ++ ">".data

/-- IconPathResolver join as worded by the amended claim: the trimmed
declared path (empty stays empty, and is returned unchanged when the prefix
is empty); otherwise the prefix — given a leading separator when it lacks
one and stripped of one trailing separator — then a separator, then the
trimmed path with one leading separator stripped. -/
def iconPathSpec (declared dir : List Char) : List Char :=
  let t := jsTrim declared
  if t.isEmpty then []
  else if dir.isEmpty then t
  else
    let nd := if dir.head? == some '/' then dir else '/' :: dir
    let nd2 := if nd.getLast? == some '/' then nd.dropLast else nd
    nd2 ++ '/' :: (if t.head? == some '/' then t.tail else t)

/-- Shortcut survival as worded by the claim: `name` and `url` are both
present with a non-empty trim. -/
def claimShortcutKeep (s : ShortcutIn) : Bool :=
  (match s.name with
    | some n => !(jsTrim n).isEmpty
    | none => false)
  && (match s.url with
    | some u => !(jsTrim u).isEmpty
    | none => false)

/-! Lemmas about the pattern automaton. -/

theorem jsLower_of_jsSpace {c : Char} (h : jsSpace c = true) : jsLower c = c := by
  have hb : (65 ≤ c.toNat && c.toNat ≤ 90) = false := by
    simp only [jsSpace, Bool.or_eq_true, beq_iff_eq, Bool.and_eq_true,
      decide_eq_true_eq] at h
    simp only [Bool.and_eq_false_iff, decide_eq_false_iff_not]
    omega
  simp only [jsLower, hb, Bool.false_eq_true, if_false]

theorem ciEq_eq_lower {c a : Char} (h : ciEq c a = true) : jsLower c = jsLower a := by
  simpa [ciEq] using h

theorem space_not_ciEq {c : Char} (hc : jsSpace c = true) (a : Char)
    (ha : jsSpace (jsLower a) = false) : ciEq c a = false := by
  cases hEq : ciEq c a with
  | false => rfl
  | true =>
    exfalso
    have h1 := ciEq_eq_lower hEq
    rw [jsLower_of_jsSpace hc] at h1
    rw [h1] at hc
    rw [hc] at ha
    exact absurd ha (by simp)

theorem space_not_beq {c d : Char} (hc : jsSpace c = true) (hd : jsSpace d = false) :
    (c == d) = false := by
  cases hEq : c == d with
  | false => rfl
  | true =>
    exfalso
    rw [beq_iff_eq] at hEq
    rw [hEq] at hc
    rw [hc] at hd
    exact absurd hd (by simp)

theorem space_not_quote {c : Char} (hc : jsSpace c = true) : isQuote c = false := by
  simp only [isQuote, Bool.or_eq_false_iff]
  exact ⟨space_not_beq hc (by decide), space_not_beq hc (by decide)⟩

theorem pmStep_gt (st : Nat) : pmStep st '>' = none := by
  match st with
  | 0 | 1 | 2 | 3 | 4 | 5 | 6 | 7 | 8 | 9 | 10
  | 11 | 12 | 13 | 14 | 15 | 16 | 17 | 18 | 19 => decide
  | n + 20 => rfl

theorem pmStep_lt_char (st : Nat) (h : st ≠ 0) : pmStep st '<' = none := by
  match st with
  | 0 => exact absurd rfl h
  | 1 | 2 | 3 | 4 | 5 | 6 | 7 | 8 | 9 | 10
  | 11 | 12 | 13 | 14 | 15 | 16 | 17 | 18 | 19 => decide
  | n + 20 => rfl

theorem pmStep_ne_zero {st : Nat} {c : Char} {st2 : Nat} (h : pmStep st c = some st2) :
    st2 ≠ 0 := by
  match st with
  | 0 | 1 | 2 | 3 | 4 | 5 | 7 | 8 | 9 | 10
  | 11 | 12 | 13 | 14 | 15 | 16 | 17 | 18 | 19 =>
    simp only [pmStep] at h
    split at h <;> simp_all <;> omega
  | 6 =>
    simp only [pmStep] at h
    split at h
    · simp_all
      omega
    · split at h <;> simp_all <;> omega
  | n + 20 => simp [pmStep] at h

theorem pmStep_space {st : Nat} {c : Char} {st2 : Nat} (hc : jsSpace c = true)
    (h : pmStep st c = some st2) : st2 = 6 := by
  match st with
  | 0 =>
    rw [pmStep, space_not_beq hc (by decide)] at h
    exact absurd h (by simp)
  | 1 =>
    rw [pmStep, space_not_ciEq hc 'l' (by decide)] at h
    exact absurd h (by simp)
  | 2 =>
    rw [pmStep, space_not_ciEq hc 'i' (by decide)] at h
    exact absurd h (by simp)
  | 3 =>
    rw [pmStep, space_not_ciEq hc 'n' (by decide)] at h
    exact absurd h (by simp)
  | 4 =>
    rw [pmStep, space_not_ciEq hc 'k' (by decide)] at h
    exact absurd h (by simp)
  | 5 =>
    rw [pmStep, hc] at h
    simpa using h.symm
  | 6 =>
    rw [pmStep, hc] at h
    simpa using h.symm
  | 7 =>
    rw [pmStep, space_not_ciEq hc 'e' (by decide)] at h
    exact absurd h (by simp)
  | 8 =>
    rw [pmStep, space_not_ciEq hc 'l' (by decide)] at h
    exact absurd h (by simp)
  | 9 =>
    rw [pmStep, space_not_beq hc (by decide)] at h
    exact absurd h (by simp)
  | 10 =>
    rw [pmStep, space_not_quote hc] at h
    exact absurd h (by simp)
  | 11 =>
    rw [pmStep, space_not_ciEq hc 'm' (by decide)] at h
    exact absurd h (by simp)
  | 12 =>
    rw [pmStep, space_not_ciEq hc 'a' (by decide)] at h
    exact absurd h (by simp)
  | 13 =>
    rw [pmStep, space_not_ciEq hc 'n' (by decide)] at h
    exact absurd h (by simp)
  | 14 =>
    rw [pmStep, space_not_ciEq hc 'i' (by decide)] at h
    exact absurd h (by simp)
  | 15 =>
    rw [pmStep, space_not_ciEq hc 'f' (by decide)] at h
    exact absurd h (by simp)
  | 16 =>
    rw [pmStep, space_not_ciEq hc 'e' (by decide)] at h
    exact absurd h (by simp)
  | 17 =>
    rw [pmStep, space_not_ciEq hc 's' (by decide)] at h
    exact absurd h (by simp)
  | 18 =>
    rw [pmStep, space_not_ciEq hc 't' (by decide)] at h
    exact absurd h (by simp)
  | 19 =>
    rw [pmStep, space_not_quote hc] at h
    exact absurd h (by simp)
  | n + 20 => simp [pmStep] at h

theorem pmConsume_twenty (s : List Char) : pmConsume 20 s = some (20, s) := by
  cases s <;> rfl

theorem pmConsume_append_dead {st : Nat} {x : List Char} (h : pmConsume st x = none)
    (t : List Char) : pmConsume st (x ++ t) = none := by
  induction x generalizing st with
  | nil => simp [pmConsume] at h
  | cons c cs ih =>
    by_cases h20 : (st == 20)
    · rw [pmConsume, if_pos h20] at h
      exact absurd h (by simp)
    · rw [pmConsume, if_neg h20] at h
      rw [List.cons_append, pmConsume, if_neg h20]
      cases hs : pmStep st c with
      | none => simp only [hs]
      | some st2 =>
        simp only [hs] at h
        simp only [hs]
        exact ih h

theorem pmConsume_append_accept {st : Nat} {x r : List Char}
    (h : pmConsume st x = some (20, r)) (t : List Char) :
    pmConsume st (x ++ t) = some (20, r ++ t) := by
  induction x generalizing st with
  | nil =>
    simp only [pmConsume] at h
    obtain ⟨h1, h2⟩ : st = 20 ∧ [] = r := by simpa using h
    subst h1
    rw [List.nil_append, pmConsume_twenty, ← h2, List.nil_append]
  | cons c cs ih =>
    by_cases h20 : (st == 20)
    · have hst : st = 20 := by simpa using h20
      subst hst
      rw [pmConsume_twenty] at h
      obtain ⟨h1, h2⟩ : (20 : Nat) = 20 ∧ c :: cs = r := by simpa using h
      rw [pmConsume_twenty, ← h2, List.cons_append]
    · rw [pmConsume, if_neg h20] at h
      rw [List.cons_append, pmConsume, if_neg h20]
      cases hs : pmStep st c with
      | none =>
        simp only [hs] at h
        exact absurd h (by simp)
      | some st2 =>
        simp only [hs] at h
        simp only [hs]
        exact ih h

theorem pmConsume_append_cont {st st' : Nat} {x : List Char}
    (h : pmConsume st x = some (st', [])) (h20 : st' ≠ 20) (t : List Char) :
    pmConsume st (x ++ t) = pmConsume st' t := by
  induction x generalizing st with
  | nil =>
    obtain ⟨h1, _⟩ : st = st' ∧ ([] : List Char) = [] := by simpa [pmConsume] using h
    rw [List.nil_append, h1]
  | cons c cs ih =>
    by_cases hb : (st == 20)
    · have hst : st = 20 := by simpa using hb
      subst hst
      rw [pmConsume_twenty] at h
      obtain ⟨h1, h2⟩ : (20 : Nat) = st' ∧ c :: cs = [] := by simpa using h
      exact absurd h2 (by simp)
    · rw [pmConsume, if_neg hb] at h
      rw [List.cons_append, pmConsume, if_neg hb]
      cases hs : pmStep st c with
      | none =>
        simp only [hs] at h
        exact absurd h (by simp)
      | some st2 =>
        simp only [hs] at h
        simp only [hs]
        exact ih h

theorem pmConsume_invariant {st st' : Nat} {x r : List Char}
    (h : pmConsume st x = some (st', r)) : st' = 20 ∨ r = [] := by
  induction x generalizing st with
  | nil =>
    obtain ⟨_, h2⟩ : st = st' ∧ ([] : List Char) = r := by simpa [pmConsume] using h
    exact Or.inr h2.symm
  | cons c cs ih =>
    by_cases hb : (st == 20)
    · have hst : st = 20 := by simpa using hb
      subst hst
      rw [pmConsume_twenty] at h
      obtain ⟨h1, _⟩ : (20 : Nat) = st' ∧ c :: cs = r := by simpa using h
      exact Or.inl h1.symm
    · rw [pmConsume, if_neg hb] at h
      cases hs : pmStep st c with
      | none =>
        simp only [hs] at h
        exact absurd h (by simp)
      | some st2 =>
        simp only [hs] at h
        exact ih h

theorem pmConsume_decomp {st st' : Nat} {x r : List Char}
    (h : pmConsume st x = some (st', r)) : ∃ y, x = y ++ r ∧ '>' ∉ y := by
  induction x generalizing st with
  | nil =>
    obtain ⟨_, h2⟩ : st = st' ∧ ([] : List Char) = r := by simpa [pmConsume] using h
    exact ⟨[], by simp [← h2], by simp⟩
  | cons c cs ih =>
    by_cases hb : (st == 20)
    · have hst : st = 20 := by simpa using hb
      subst hst
      rw [pmConsume_twenty] at h
      obtain ⟨_, h2⟩ : (20 : Nat) = st' ∧ c :: cs = r := by simpa using h
      exact ⟨[], by simp [h2], by simp⟩
    · rw [pmConsume, if_neg hb] at h
      cases hs : pmStep st c with
      | none =>
        simp only [hs] at h
        exact absurd h (by simp)
      | some st2 =>
        simp only [hs] at h
        obtain ⟨y, hy, hny⟩ := ih h
        refine ⟨c :: y, by simp [hy], ?_⟩
        intro hmem
        rcases List.mem_cons.mp hmem with h1 | h1
        · rw [← h1, pmStep_gt] at hs
          exact absurd hs (by simp)
        · exact hny h1

theorem pmConsume_ne_zero_aux {st st' : Nat} {x r : List Char}
    (h : pmConsume st x = some (st', r)) (h0 : st' = 0) : st = 0 := by
  induction x generalizing st with
  | nil =>
    obtain ⟨h1, _⟩ : st = st' ∧ ([] : List Char) = r := by simpa [pmConsume] using h
    rw [h1, h0]
  | cons c cs ih =>
    by_cases hb : (st == 20)
    · have hst : st = 20 := by simpa using hb
      subst hst
      rw [pmConsume_twenty] at h
      obtain ⟨h1, _⟩ : (20 : Nat) = st' ∧ c :: cs = r := by simpa using h
      omega
    · rw [pmConsume, if_neg hb] at h
      cases hs : pmStep st c with
      | none =>
        simp only [hs] at h
        exact absurd h (by simp)
      | some st2 =>
        simp only [hs] at h
        exact absurd (ih h) (pmStep_ne_zero hs)

theorem pmConsume_pos {x : List Char} {st' : Nat} {r : List Char} (hx : x ≠ [])
    (h : pmConsume 0 x = some (st', r)) : st' ≠ 0 := by
  cases x with
  | nil => exact absurd rfl hx
  | cons c cs =>
    rw [pmConsume, if_neg (by decide)] at h
    cases hs : pmStep 0 c with
    | none =>
      simp only [hs] at h
      exact absurd h (by simp)
    | some st2 =>
      simp only [hs] at h
      intro h0
      exact pmStep_ne_zero hs (pmConsume_ne_zero_aux h h0)

theorem pmConsume_gt_mem {st st' : Nat} {x r : List Char}
    (h : pmConsume st x = some (st', r)) (hgt : '>' ∈ x) : '>' ∈ r := by
  obtain ⟨y, hy, hny⟩ := pmConsume_decomp h
  subst hy
  rcases List.mem_append.mp hgt with h1 | h1
  · exact absurd h1 hny
  · exact h1

theorem pmConsume_dead_lt {st : Nat} (h0 : st ≠ 0) (h20 : st ≠ 20) (v : List Char) :
    pmConsume st ('<' :: v) = none := by
  rw [pmConsume, if_neg (by simp [h20]), pmStep_lt_char st h0]

theorem pmConsume_dead_space {u : List Char} (hu : ∀ c ∈ u, jsSpace c = true) :
    ∀ st, st ≠ 0 → st ≠ 20 → ∀ v, pmConsume st (u ++ '<' :: v) = none := by
  induction u with
  | nil => exact fun st h0 h20 v => pmConsume_dead_lt h0 h20 v
  | cons c cs ih =>
    intro st h0 h20 v
    rw [List.cons_append, pmConsume, if_neg (by simp [h20])]
    cases hs : pmStep st c with
    | none => simp only [hs]
    | some st2 =>
      have h6 : st2 = 6 := pmStep_space (hu c (by simp)) hs
      subst h6
      simp only [hs]
      exact ih (fun d hd => hu d (by simp [hd])) 6 (by decide) (by decide) v

/-! Lemmas about anchored regex matches. -/

theorem dropWhile_head_false {p : Char → Bool} {l : List Char} {d : Char} {r : List Char}
    (h : l.dropWhile p = d :: r) : p d = false := by
  induction l with
  | nil => exact absurd h (by simp)
  | cons c cs ih =>
    rw [List.dropWhile_cons] at h
    split at h
    · exact ih h
    · rename_i hc
      cases h
      simpa using hc

theorem dropWhile_ne_nil_of_mem {p : Char → Bool} {l : List Char} {d : Char}
    (hd : d ∈ l) (hp : p d = false) : l.dropWhile p ≠ [] := by
  induction l with
  | nil => simp at hd
  | cons c cs ih =>
    rw [List.dropWhile_cons]
    split
    · rename_i hc
      rcases List.mem_cons.mp hd with h1 | h1
      · rw [← h1] at hc
        rw [hc] at hp
        exact absurd hp (by simp)
      · exact ih h1
    · simp

theorem mem_takeWhile_pred {p : Char → Bool} {l : List Char} {d : Char}
    (hd : d ∈ l.takeWhile p) : p d = true := by
  induction l with
  | nil => simp at hd
  | cons c cs ih =>
    rw [List.takeWhile_cons] at hd
    split at hd
    · rcases List.mem_cons.mp hd with h1 | h1
      · subst h1
        assumption
      · exact ih h1
    · simp at hd

theorem pmRun_of_accept {s s5 : List Char} (hc : pmConsume 0 s = some (20, s5)) :
    pmRun s = some s5 := by
  unfold pmRun
  rw [hc]
  simp

theorem pmRun_of_cont {s : List Char} {st : Nat} {r : List Char}
    (hc : pmConsume 0 s = some (st, r)) (h20 : st ≠ 20) : pmRun s = none := by
  unfold pmRun
  rw [hc]
  simp [h20]

theorem pmRun_of_dead {s : List Char} (hc : pmConsume 0 s = none) : pmRun s = none := by
  unfold pmRun
  rw [hc]

theorem pmConsume_of_pmRun {s s5 : List Char} (h : pmRun s = some s5) :
    pmConsume 0 s = some (20, s5) := by
  unfold pmRun at h
  cases hc : pmConsume 0 s with
  | none => rw [hc] at h; simp at h
  | some p =>
    obtain ⟨st, r⟩ := p
    rw [hc] at h
    simp only [] at h
    by_cases hb : st = 20
    · subst hb
      simp at h
      rw [h]
    · simp [hb] at h

theorem linkMatchAt_eq_of_run_some {s s5 : List Char} (hrun : pmRun s = some s5) :
    linkMatchAt s = (match s5.dropWhile (fun c => !(c == '>')) with
      | [] => none
      | _ :: r => some (s.take (s.length - r.length), r)) := by
  unfold linkMatchAt
  rw [hrun]

theorem linkMatchAt_eq_of_run_none {s : List Char} (hrun : pmRun s = none) :
    linkMatchAt s = none := by
  unfold linkMatchAt
  rw [hrun]

theorem linkMatchAt_nil : linkMatchAt [] = none := rfl

theorem linkMatchAt_decomp {s m r : List Char} (h : linkMatchAt s = some (m, r)) :
    ∃ y body, s = (y ++ body ++ ['>']) ++ r ∧ m = y ++ body ++ ['>'] ∧
      '>' ∉ y ∧ '>' ∉ body ∧ pmConsume 0 s = some (20, body ++ '>' :: r) := by
  cases hrun : pmRun s with
  | none =>
    rw [linkMatchAt_eq_of_run_none hrun] at h
    exact absurd h (by simp)
  | some s5 =>
    rw [linkMatchAt_eq_of_run_some hrun] at h
    have hc := pmConsume_of_pmRun hrun
    cases hdw : s5.dropWhile (fun c => !(c == '>')) with
    | nil =>
      rw [hdw] at h
      simp at h
    | cons d r' =>
      rw [hdw] at h
      obtain ⟨hm, hr⟩ : s.take (s.length - r'.length) = m ∧ r' = r := by simpa using h
      rw [hr] at hdw hm
      have hd : d = '>' := by simpa using dropWhile_head_false hdw
      subst hd
      obtain ⟨y, hy, hny⟩ := pmConsume_decomp hc
      have hs5 : s5 = s5.takeWhile (fun c => !(c == '>')) ++ '>' :: r := by
        conv_lhs => rw [← List.takeWhile_append_dropWhile (p := fun c => !(c == '>')) (l := s5)]
        rw [hdw]
      set body := s5.takeWhile (fun c => !(c == '>')) with hbody
      have hnb : '>' ∉ body := by
        intro hmem
        have := mem_takeWhile_pred hmem
        simp at this
      have hseq : s = (y ++ body ++ ['>']) ++ r := by
        rw [hy, hs5]
        simp
      have hlen : s.length - r.length = (y ++ body ++ ['>']).length := by
        rw [hseq]
        simp
        omega
      have hm2 : m = y ++ body ++ ['>'] := by
        rw [← hm, hlen, hseq, List.take_left]
      exact ⟨y, body, hseq, hm2, hny, hnb, by rw [hc, hs5]⟩

theorem linkMatchAt_eq_append {s m r : List Char} (h : linkMatchAt s = some (m, r)) :
    s = m ++ r := by
  obtain ⟨y, body, h1, h2, _⟩ := linkMatchAt_decomp h
  rw [h1, h2]

theorem linkMatchAt_gt_mem {s m r : List Char} (h : linkMatchAt s = some (m, r)) :
    '>' ∈ m := by
  obtain ⟨y, body, _, h2, _⟩ := linkMatchAt_decomp h
  rw [h2]
  simp

theorem linkMatchAt_ne_nil {s m r : List Char} (h : linkMatchAt s = some (m, r)) :
    m ≠ [] := by
  obtain ⟨y, body, _, h2, _⟩ := linkMatchAt_decomp h
  rw [h2]
  simp

theorem linkMatchAt_rest_lt {s m r : List Char} (h : linkMatchAt s = some (m, r)) :
    r.length < s.length := by
  have h1 := linkMatchAt_eq_append h
  have h2 := linkMatchAt_ne_nil h
  rw [h1, List.length_append]
  cases m with
  | nil => exact absurd rfl h2
  | cons a l => simp

theorem linkMatchAt_isSome_of {s s5 : List Char} (hc : pmConsume 0 s = some (20, s5))
    (hgt : '>' ∈ s5) : (linkMatchAt s).isSome = true := by
  rw [linkMatchAt_eq_of_run_some (pmRun_of_accept hc)]
  cases hdw : s5.dropWhile (fun c => !(c == '>')) with
  | nil => exact absurd hdw (dropWhile_ne_nil_of_mem hgt (by simp))
  | cons d r' => simp

theorem linkMatchAt_head_ne {c : Char} {w : List Char} (hc : c ≠ '<') :
    linkMatchAt (c :: w) = none := by
  have hdead : pmConsume 0 (c :: w) = none := by
    rw [pmConsume, if_neg (by decide), pmStep]
    rw [show (c == '<') = false from by simpa using hc]
    simp
  exact linkMatchAt_eq_of_run_none (pmRun_of_dead hdead)

theorem linkMatchAt_lt_not_l {d : Char} {w : List Char} (hd : ciEq d 'l' = false) :
    linkMatchAt ('<' :: d :: w) = none := by
  have hdead : pmConsume 0 ('<' :: d :: w) = none := by
    rw [pmConsume, if_neg (by decide)]
    rw [show pmStep 0 '<' = some 1 from by decide]
    show pmConsume 1 (d :: w) = none
    rw [pmConsume, if_neg (by decide), pmStep, hd]
    simp
  exact linkMatchAt_eq_of_run_none (pmRun_of_dead hdead)

theorem nomatch_transfer {x u w : List Char} (hx : x ≠ [])
    (ht : linkMatchAt (x ++ u) = none)
    (hgt : '>' ∈ u ∨ '>' ∈ x)
    (hw : ∀ st, st ≠ 0 → st ≠ 20 → pmConsume st w = none) :
    linkMatchAt (x ++ w) = none := by
  cases hc : pmConsume 0 x with
  | none => exact linkMatchAt_eq_of_run_none (pmRun_of_dead (pmConsume_append_dead hc w))
  | some p =>
    obtain ⟨st, r⟩ := p
    by_cases h20 : st = 20
    · subst h20
      exfalso
      have hacc := pmConsume_append_accept hc u
      have hgt2 : '>' ∈ r ++ u := by
        rcases hgt with h1 | h1
        · exact List.mem_append.mpr (Or.inr h1)
        · exact List.mem_append.mpr (Or.inl (pmConsume_gt_mem hc h1))
      have hsome := linkMatchAt_isSome_of hacc hgt2
      rw [ht] at hsome
      exact absurd hsome (by simp)
    · have hr : r = [] := (pmConsume_invariant hc).resolve_left h20
      subst hr
      have h0 : st ≠ 0 := pmConsume_pos hx hc
      refine linkMatchAt_eq_of_run_none (pmRun_of_dead ?_)
      rw [pmConsume_append_cont hc h20 w]
      exact hw st h0 h20

/-! Lemmas about the global scan. -/

theorem linkMatchesGo_nil (fuel : Nat) : linkMatchesGo fuel [] = [] := by
  cases fuel <;> rfl

theorem linkMatchesGo_congr : ∀ {f : Nat} {s : List Char} {g : Nat},
    s.length ≤ f → s.length ≤ g → linkMatchesGo f s = linkMatchesGo g s := by
  intro f
  induction f using Nat.strong_induction_on with
  | _ f ih =>
    intro s g hf hg
    cases s with
    | nil => rw [linkMatchesGo_nil, linkMatchesGo_nil]
    | cons c cs =>
      cases f with
      | zero => simp at hf
      | succ n =>
        cases g with
        | zero => simp at hg
        | succ k =>
          cases hm : linkMatchAt (c :: cs) with
          | some p =>
            obtain ⟨m, rest⟩ := p
            have hlt := linkMatchAt_rest_lt hm
            simp only [linkMatchesGo, hm]
            have h1 : linkMatchesGo n rest = linkMatchesGo k rest := by
              apply ih n (by omega)
              · simp at hf hlt ⊢
                omega
              · simp at hg hlt ⊢
                omega
            rw [h1]
          | none =>
            simp only [linkMatchesGo, hm]
            apply ih n (by omega)
            · simp at hf ⊢
              omega
            · simp at hg ⊢
              omega

theorem linkMatches_cons_some {c : Char} {cs m r : List Char}
    (hm : linkMatchAt (c :: cs) = some (m, r)) :
    linkMatches (c :: cs) = m :: linkMatches r := by
  unfold linkMatches
  simp only [List.length_cons, linkMatchesGo, hm]
  have hlt := linkMatchAt_rest_lt hm
  simp at hlt
  exact congrArg (m :: ·) (linkMatchesGo_congr (by omega) (by omega))

theorem linkMatches_cons_none {c : Char} {cs : List Char}
    (hm : linkMatchAt (c :: cs) = none) : linkMatches (c :: cs) = linkMatches cs := by
  unfold linkMatches
  simp only [List.length_cons, linkMatchesGo, hm]

theorem linkMatches_nil : linkMatches [] = [] := rfl

theorem hasLinkTag_of_matchAt {s : List Char} {p : List Char × List Char}
    (h : linkMatchAt s = some p) : hasLinkTag s = true := by
  cases s with
  | nil => rw [linkMatchAt_nil] at h; exact absurd h (by simp)
  | cons c cs =>
    rw [hasLinkTag, h]
    simp

theorem hasLinkTag_append_true {x y : List Char} (h : hasLinkTag y = true) :
    hasLinkTag (x ++ y) = true := by
  induction x with
  | nil => simpa using h
  | cons c cs ih =>
    rw [List.cons_append, hasLinkTag, ih]
    simp

theorem noScanMatch_of_false {x y : List Char} (h : hasLinkTag (x ++ y) = false) :
    noScanMatch x y := by
  induction x with
  | nil => trivial
  | cons c cs ih =>
    rw [List.cons_append, hasLinkTag] at h
    simp only [Bool.or_eq_false_iff] at h
    obtain ⟨h1, h2⟩ := h
    exact ⟨by simpa using h1, ih h2⟩

theorem hasLinkTag_append_false_right {x y : List Char} (h : hasLinkTag (x ++ y) = false) :
    hasLinkTag y = false := by
  induction x with
  | nil => simpa using h
  | cons c cs ih =>
    rw [List.cons_append, hasLinkTag] at h
    simp only [Bool.or_eq_false_iff] at h
    exact ih h.2

theorem hasLinkTag_append_of {x y : List Char} (hx : noScanMatch x y)
    (hy : hasLinkTag y = false) : hasLinkTag (x ++ y) = false := by
  induction x with
  | nil => simpa using hy
  | cons c cs ih =>
    rw [List.cons_append, hasLinkTag]
    obtain ⟨h1, h2⟩ := hx
    rw [h1, ih h2]
    rfl

theorem noScanMatch_append_split {a b y : List Char} (h : noScanMatch (a ++ b) y) :
    noScanMatch a (b ++ y) ∧ noScanMatch b y := by
  induction a with
  | nil => exact ⟨trivial, by simpa using h⟩
  | cons c cs ih =>
    rw [List.cons_append] at h
    obtain ⟨h1, h2⟩ := h
    obtain ⟨h3, h4⟩ := ih h2
    refine ⟨⟨?_, h3⟩, h4⟩
    simpa [List.append_assoc] using h1

theorem noScanMatch_append_build {a b y : List Char} (ha : noScanMatch a (b ++ y))
    (hb : noScanMatch b y) : noScanMatch (a ++ b) y := by
  induction a with
  | nil => simpa using hb
  | cons c cs ih =>
    obtain ⟨h1, h2⟩ := ha
    rw [List.cons_append]
    exact ⟨by simpa [List.append_assoc] using h1, ih h2⟩

theorem noScanMatch_transfer {a u w : List Char} (h : noScanMatch a u)
    (hgt : '>' ∈ u ∨ ∃ a0, a = a0 ++ ['>'])
    (hw : ∀ st, st ≠ 0 → st ≠ 20 → pmConsume st w = none) : noScanMatch a w := by
  induction a with
  | nil => trivial
  | cons c cs ih =>
    obtain ⟨h1, h2⟩ := h
    constructor
    · have hx : (c :: cs) ≠ [] := by simp
      have hgt2 : '>' ∈ u ∨ '>' ∈ (c :: cs) := by
        rcases hgt with hg | ⟨a0, ha0⟩
        · exact Or.inl hg
        · refine Or.inr ?_
          rw [ha0]
          simp
      have := nomatch_transfer hx (by simpa using h1) hgt2 hw
      simpa using this
    · rcases hgt with hg | ⟨a0, ha0⟩
      · exact ih h2 (Or.inl hg)
      · cases a0 with
        | nil =>
          simp at ha0
          rw [ha0.2]
          trivial
        | cons d a1 =>
          simp at ha0
          exact ih h2 (Or.inr ⟨a1, ha0.2⟩)

theorem scan_skip {a y : List Char} (h : noScanMatch a y) :
    linkMatches (a ++ y) = linkMatches y := by
  induction a with
  | nil => simp
  | cons c cs ih =>
    obtain ⟨h1, h2⟩ := h
    rw [List.cons_append, linkMatches_cons_none h1]
    exact ih h2

/-! Lemmas about replacement and the canonical tag. -/

theorem replaceAllGo_nil (tmpl : List Char) (fuel : Nat) (pre : List Char) :
    replaceAllGo tmpl fuel pre [] = [] := by
  cases fuel <;> rfl

theorem expand_no_dollar {tmpl m pre post : List Char} (h : '$' ∉ tmpl) :
    expandRepl tmpl m pre post = tmpl := by
  induction tmpl with
  | nil => rfl
  | cons c ts ih =>
    have hc : c ≠ '$' := fun he => h (by simp [he])
    have hts : '$' ∉ ts := fun hm => h (by simp [hm])
    cases ts with
    | nil =>
      simp only [expandRepl]
      rw [show (c == '$') = false from by simpa using hc]
      simp
    | cons d ts2 =>
      simp only [expandRepl]
      rw [show (c == '$') = false from by simpa using hc]
      simp only [Bool.false_eq_true, if_false]
      rw [ih hts]

theorem replaceAllGo_id {tmpl s : List Char} (h : hasLinkTag s = false) :
    ∀ fuel pre, s.length ≤ fuel → replaceAllGo tmpl fuel pre s = s := by
  induction s with
  | nil => intro fuel pre _; exact replaceAllGo_nil tmpl fuel pre
  | cons c cs ih =>
    intro fuel pre hf
    cases fuel with
    | zero => simp at hf
    | succ n =>
      rw [hasLinkTag] at h
      simp only [Bool.or_eq_false_iff] at h
      have hm : linkMatchAt (c :: cs) = none := by
        cases hmm : linkMatchAt (c :: cs) with
        | none => rfl
        | some p =>
          rw [hmm] at h
          simp at h
      simp only [replaceAllGo, hm]
      rw [ih h.2 n (pre ++ [c]) (by simpa using hf)]

theorem replaceAllGo_decomp {L A m R : List Char} (hA : noScanMatch A (m ++ R))
    (hm : linkMatchAt (m ++ R) = some (m, R)) (hR : hasLinkTag R = false)
    (hd : '$' ∉ L) :
    ∀ fuel pre, (A ++ (m ++ R)).length ≤ fuel →
      replaceAllGo L fuel pre (A ++ (m ++ R)) = A ++ (L ++ R) := by
  induction A with
  | nil =>
    intro fuel pre hf
    cases m with
    | nil => exact absurd rfl (linkMatchAt_ne_nil hm)
    | cons mh mt =>
      cases fuel with
      | zero => simp at hf
      | succ n =>
        have hm2 : linkMatchAt (mh :: (mt ++ R)) = some (mh :: mt, R) := by
          simpa using hm
        rw [List.cons_append]
        simp only [replaceAllGo, hm2]
        rw [expand_no_dollar hd, replaceAllGo_id hR n (pre ++ (mh :: mt)) (by simp at hf; omega)]
        simp
  | cons a A2 ih =>
    intro fuel pre hf
    cases fuel with
    | zero => simp at hf
    | succ n =>
      obtain ⟨h1, h2⟩ := hA
      rw [List.cons_append]
      simp only [replaceAllGo, h1]
      rw [ih h2 n (pre ++ [a]) (by simp at hf ⊢; omega), List.cons_append]

theorem dropWhile_append_no {a w : List Char} (h : '>' ∉ a) :
    (a ++ '>' :: w).dropWhile (fun c => !(c == '>')) = '>' :: w := by
  induction a with
  | nil => simp [List.dropWhile_cons]
  | cons c cs ih =>
    have hc : c ≠ '>' := fun he => h (by simp [he])
    rw [List.cons_append, List.dropWhile_cons]
    rw [show (!(c == '>')) = true from by simpa using hc]
    simp only [if_true]
    exact ih fun hm => h (by simp [hm])

theorem mem_normalizePath {d : Char} {f : List Char} (h : d ∈ normalizePath f)
    (hd : d ≠ '/') : d ∈ f := by
  unfold normalizePath at h
  obtain ⟨c, hc, he⟩ := List.mem_map.mp h
  by_cases hb : c = '\\'
  · rw [hb] at he
    simp at he
    exact absurd he.symm hd
  · rw [show (c == '\\') = false from by simpa using hb] at he
    simp at he
    rw [← he]
    exact hc

theorem pm_lit (w : List Char) :
    pmConsume 0 ("<link rel=\"manifest\"".data ++ w) = some (20, w) := by
  have h0 : pmConsume 0 "<link rel=\"manifest\"".data = some (20, []) := by decide
  simpa using pmConsume_append_accept h0 w

theorem genLink_split (f : List Char) (u : Bool) :
    generateManifestLink f u = "<link rel=\"manifest\"".data ++
      ((" href=\"".data ++ (hrefValue f ++ ('"' ::
        (if u then " crossorigin=\"use-credentials\"".data else [])))) ++ ['>']) := by
  unfold generateManifestLink
  have hsp : "<link rel=\"manifest\" href=\"".data =
      "<link rel=\"manifest\"".data ++ " href=\"".data := by decide
  rw [hsp]
  simp [List.append_assoc]

theorem linkMatchAt_self {f : List Char} {u : Bool} (hf : '>' ∉ normalizePath f)
    (w : List Char) :
    linkMatchAt (generateManifestLink f u ++ w) =
      some (generateManifestLink f u, w) := by
  set L := generateManifestLink f u with hL
  set mid := " href=\"".data ++ (hrefValue f ++ ('"' ::
    (if u then " crossorigin=\"use-credentials\"".data else []))) with hmid
  have hsplit : L = "<link rel=\"manifest\"".data ++ (mid ++ ['>']) := genLink_split f u
  have hnogt : '>' ∉ mid := by
    rw [hmid]
    intro hmm
    rcases List.mem_append.mp hmm with h1 | h1
    · revert h1
      decide
    · rcases List.mem_append.mp h1 with h2 | h2
      · rcases List.mem_cons.mp h2 with h3 | h3
        · exact absurd h3 (by decide)
        · exact hf h3
      · rcases List.mem_cons.mp h2 with h3 | h3
        · exact absurd h3 (by decide)
        · cases u with
          | true =>
            revert h3
            decide
          | false => simp at h3
  have hcons : pmConsume 0 (L ++ w) = some (20, (mid ++ ['>']) ++ w) := by
    rw [hsplit, List.append_assoc]
    exact pm_lit _
  have hrest : (mid ++ ['>']) ++ w = mid ++ ('>' :: w) := by simp
  rw [hrest] at hcons
  rw [linkMatchAt_eq_of_run_some (pmRun_of_accept hcons)]
  rw [dropWhile_append_no hnogt]
  show some ((L ++ w).take ((L ++ w).length - w.length), w) = some (L, w)
  have htake : (L ++ w).take ((L ++ w).length - w.length) = L := by
    rw [List.length_append, Nat.add_sub_cancel, List.take_left]
  rw [htake]

theorem genLink_head (f : List Char) (u : Bool) :
    ∃ t, generateManifestLink f u = '<' :: t := ⟨_, rfl⟩

theorem genLink_last (f : List Char) (u : Bool) :
    ∃ t, generateManifestLink f u = t ++ ['>'] := by
  refine ⟨"<link rel=\"manifest\"".data ++ (" href=\"".data ++ (hrefValue f ++ ('"' ::
    (if u then " crossorigin=\"use-credentials\"".data else [])))), ?_⟩
  rw [genLink_split f u]
  simp [List.append_assoc]

theorem genLink_no_dollar {f : List Char} (hf : '$' ∉ f) (u : Bool) :
    '$' ∉ generateManifestLink f u := by
  rw [genLink_split f u]
  intro hmm
  rcases List.mem_append.mp hmm with h1 | h1
  · revert h1
    decide
  · rcases List.mem_append.mp h1 with h2 | h2
    · rcases List.mem_append.mp h2 with h3 | h3
      · revert h3
        decide
      · rcases List.mem_append.mp h3 with h4 | h4
        · rcases List.mem_cons.mp h4 with h5 | h5
          · exact absurd h5 (by decide)
          · exact hf (mem_normalizePath h5 (by decide))
        · rcases List.mem_cons.mp h4 with h5 | h5
          · exact absurd h5 (by decide)
          · cases u with
            | true =>
              revert h5
              decide
            | false => simp at h5
    · rcases List.mem_cons.mp h2 with h3 | h3
      · exact absurd h3 (by decide)
      · simp at h3

theorem genLink_no_gt {f : List Char} (hf : '>' ∉ f) :
    '>' ∉ normalizePath f := fun h => hf (mem_normalizePath h (by decide))

/-! Lemmas about the head and html searches. -/

theorem eq_symbol_of_jsLower {d c : Char} (hrange : d.toNat < 97 ∨ 122 < d.toNat)
    (h : jsLower c = d) : c = d := by
  unfold jsLower at h
  split at h
  · rename_i hcond
    exfalso
    simp only [Bool.and_eq_true, decide_eq_true_eq] at hcond
    have hv : (Char.ofNat (c.toNat + 32)).toNat = c.toNat + 32 := by
      rw [Char.ofNat, dif_pos]
      · rfl
      · exact Or.inl (by omega)
    rw [h] at hv
    have hd : d.toNat = c.toNat + 32 := hv
    omega
  · exact h

theorem ciEq_symbol {d c : Char} (hd : jsLower d = d)
    (hrange : d.toNat < 97 ∨ 122 < d.toNat) (h : ciEq d c = true) : c = d := by
  have h1 := ciEq_eq_lower h
  rw [hd] at h1
  exact eq_symbol_of_jsLower hrange h1.symm

theorem stripCI_decomp {pat s r : List Char} (h : stripCI pat s = some r) :
    ∃ y, s = y ++ r ∧ y.length = pat.length ∧
      List.Forall₂ (fun p c => ciEq p c = true) pat y := by
  induction pat generalizing s with
  | nil =>
    obtain he : s = r := by simpa [stripCI] using h
    exact ⟨[], by simp [he], by simp, List.Forall₂.nil⟩
  | cons p ps ih =>
    cases s with
    | nil => simp [stripCI] at h
    | cons c cs =>
      rw [stripCI] at h
      split at h
      · obtain ⟨y, hy, hl, hf⟩ := ih h
        exact ⟨c :: y, by simp [hy], by simp [hl], List.Forall₂.cons (by assumption) hf⟩
      · exact absurd h (by simp)

theorem forall₂_mem_left {R : Char → Char → Prop} {ps ys : List Char}
    (h : List.Forall₂ R ps ys) {p : Char} (hp : p ∈ ps) : ∃ c ∈ ys, R p c := by
  induction h with
  | nil => simp at hp
  | cons hr ht ih =>
    rcases List.mem_cons.mp hp with h1 | h1
    · subst h1
      exact ⟨_, by simp, hr⟩
    · obtain ⟨c, hc, hrc⟩ := ih h1
      exact ⟨c, by simp [hc], hrc⟩

theorem stripCI_gt_mem {pat s r : List Char} (h : stripCI pat s = some r)
    (hgt : '>' ∈ pat) {y : List Char} (hy : s = y ++ r) (hl : y.length = pat.length)
    (hf : List.Forall₂ (fun p c => ciEq p c = true) pat y) : '>' ∈ y := by
  obtain ⟨c, hc, hrc⟩ := forall₂_mem_left hf hgt
  have : c = '>' := ciEq_symbol (by decide) (by decide) hrc
  rw [← this]
  exact hc

theorem headFind_decomp {t a h b : List Char} (hf : headFind t = some (a, h, b)) :
    t = a ++ (h ++ b) ∧ '>' ∈ h := by
  induction t generalizing a with
  | nil => simp [headFind] at hf
  | cons c cs ih =>
    rw [headFind] at hf
    cases hst : stripCI "</head>".data (c :: cs) with
    | some rest =>
      rw [hst] at hf
      obtain ⟨ha, hh, hb⟩ : [] = a ∧ (c :: cs).take 7 = h ∧ rest = b := by
        simpa using hf
      obtain ⟨y, hy, hl, hfa⟩ := stripCI_decomp hst
      have hyh : h = y := by
        rw [← hh, hy]
        rw [show (7 : Nat) = y.length from by rw [hl]; decide]
        exact List.take_left y rest
      constructor
      · rw [← ha, hy, hyh, hb]
        simp
      · rw [hyh]
        exact stripCI_gt_mem hst (by decide) hy hl hfa
    | none =>
      rw [hst] at hf
      cases hrec : headFind cs with
      | some p =>
        obtain ⟨a2, h2, b2⟩ := p
        rw [hrec] at hf
        obtain ⟨ha, hh, hb⟩ : c :: a2 = a ∧ h2 = h ∧ b2 = b := by simpa using hf
        subst hh hb
        obtain ⟨ht2, hgt2⟩ := ih hrec
        constructor
        · rw [← ha, List.cons_append, ← ht2]
        · exact hgt2
      | none =>
        rw [hrec] at hf
        simp at hf

theorem htmlMatchAt_decomp {s m r : List Char} (h : htmlMatchAt s = some (m, r)) :
    s = m ++ r ∧ '>' ∈ m ∧ (∃ t0, m = '<' :: t0) ∧ ∃ m0, m = m0 ++ ['>'] := by
  unfold htmlMatchAt at h
  cases hst : stripCI "<html".data s with
  | none =>
    rw [hst] at h
    simp at h
  | some s1 =>
    rw [hst] at h
    simp only [] at h
    cases hdw : s1.dropWhile (fun c => !(c == '>')) with
    | nil =>
      rw [hdw] at h
      simp at h
    | cons d r' =>
      rw [hdw] at h
      obtain ⟨hm, hr⟩ : s.take (s.length - r'.length) = m ∧ r' = r := by simpa using h
      rw [hr] at hdw hm
      have hd : d = '>' := by simpa using dropWhile_head_false hdw
      subst hd
      obtain ⟨y, hy, hl, hfa⟩ := stripCI_decomp hst
      have hs1 : s1 = s1.takeWhile (fun c => !(c == '>')) ++ '>' :: r := by
        conv_lhs => rw [← List.takeWhile_append_dropWhile (p := fun c => !(c == '>')) (l := s1)]
        rw [hdw]
      set body := s1.takeWhile (fun c => !(c == '>')) with hbody
      have hseq : s = (y ++ body ++ ['>']) ++ r := by
        rw [hy, hs1]
        simp
      have hlen : s.length - r.length = (y ++ body ++ ['>']).length := by
        rw [hseq]
        simp
        omega
      have hm2 : m = y ++ body ++ ['>'] := by
        rw [← hm, hlen, hseq, List.take_left]
      have hhead : ∃ t0, m = '<' :: t0 := by
        cases hfa with
        | cons hr0 ht0 =>
          rename_i c0 y0
          have hc0 : c0 = '<' := ciEq_symbol (by decide) (by decide) hr0
          subst hc0
          exact ⟨y0 ++ body ++ ['>'], by simp [hm2]⟩
      refine ⟨by rw [hseq, hm2], by rw [hm2]; simp, hhead, ⟨y ++ body, by rw [hm2]⟩⟩

theorem htmlFind_decomp {t a m b : List Char} (hf : htmlFind t = some (a, m, b)) :
    t = a ++ (m ++ b) ∧ '>' ∈ m ∧ (∃ t0, m = '<' :: t0) ∧ ∃ m0, m = m0 ++ ['>'] := by
  induction t generalizing a with
  | nil => simp [htmlFind] at hf
  | cons c cs ih =>
    rw [htmlFind] at hf
    cases hst : htmlMatchAt (c :: cs) with
    | some p =>
      obtain ⟨m2, rest⟩ := p
      rw [hst] at hf
      obtain ⟨ha, hm, hb⟩ : [] = a ∧ m2 = m ∧ rest = b := by simpa using hf
      obtain ⟨h1, h2, h3, h4⟩ := htmlMatchAt_decomp hst
      subst hm hb
      exact ⟨by rw [← ha, ← h1]; simp, h2, h3, h4⟩
    | none =>
      rw [hst] at hf
      cases hrec : htmlFind cs with
      | some p =>
        obtain ⟨a2, m2, b2⟩ := p
        rw [hrec] at hf
        obtain ⟨ha, hm, hb⟩ : c :: a2 = a ∧ m2 = m ∧ b2 = b := by simpa using hf
        subst hm hb
        obtain ⟨ht2, hgt2, hh2, hl2⟩ := ih hrec
        exact ⟨by rw [← ha, List.cons_append, ← ht2], hgt2, hh2, hl2⟩
      | none =>
        rw [hrec] at hf
        simp at hf

/-! Branch equations of the injector and the stability argument. -/

theorem linkMatches_ne_nil_of_has {s : List Char} (h : hasLinkTag s = true) :
    linkMatches s ≠ [] := by
  induction s with
  | nil => simp [hasLinkTag] at h
  | cons c cs ih =>
    rw [hasLinkTag] at h
    cases hm : linkMatchAt (c :: cs) with
    | some p =>
      obtain ⟨m, r⟩ := p
      rw [linkMatches_cons_some hm]
      simp
    | none =>
      rw [hm] at h
      simp at h
      rw [linkMatches_cons_none hm]
      exact ih h

theorem linkMatches_decomp {t m : List Char} {ms : List (List Char)}
    (h : linkMatches t = m :: ms) :
    ∃ A R, t = A ++ (m ++ R) ∧ noScanMatch A (m ++ R) ∧
      linkMatchAt (m ++ R) = some (m, R) ∧ linkMatches R = ms := by
  induction t with
  | nil => rw [linkMatches_nil] at h; exact absurd h (by simp)
  | cons c cs ih =>
    cases hm : linkMatchAt (c :: cs) with
    | some p =>
      obtain ⟨m2, rest⟩ := p
      rw [linkMatches_cons_some hm] at h
      obtain ⟨hm1, hm2⟩ : m2 = m ∧ linkMatches rest = ms := by simpa using h
      subst hm1
      have heq := linkMatchAt_eq_append hm
      refine ⟨[], rest, by simpa using heq, trivial, ?_, hm2⟩
      rw [← heq]
      exact hm
    | none =>
      rw [linkMatches_cons_none hm] at h
      obtain ⟨A, R, h1, h2, h3, h4⟩ := ih h
      refine ⟨c :: A, R, by simp [h1], ⟨?_, h2⟩, h3, h4⟩
      rw [← h1]
      exact hm

theorem inject_eq_update {content f : List Char} {u : Bool}
    (hfound : hasLinkTag content = true) :
    injectManifestLink content f u = updateManifestLink content f u := by
  unfold injectManifestLink
  simp [hfound]

theorem inject_eq_head {content f : List Char} {u : Bool} {a h b : List Char}
    (hfound : hasLinkTag content = false) (hh : headFind content = some (a, h, b)) :
    injectManifestLink content f u =
      a ++ expandRepl (' ' :: ' ' :: (generateManifestLink f u ++ '\n' :: "</head>".data))
        h a b ++ b := by
  unfold injectManifestLink
  simp [hfound, hh]

theorem inject_eq_html {content f : List Char} {u : Bool} {a m b : List Char}
    (hfound : hasLinkTag content = false) (hh : headFind content = none)
    (hm : htmlFind content = some (a, m, b)) :
    injectManifestLink content f u =
      a ++ m ++ '\n' :: ("<head>".data ++ '\n' :: ' ' :: ' ' ::
        (generateManifestLink f u ++ '\n' :: ("</head>".data ++ b))) := by
  unfold injectManifestLink
  simp [hfound, hh, hm]

theorem inject_eq_pre {content f : List Char} {u : Bool}
    (hfound : hasLinkTag content = false) (hh : headFind content = none)
    (hm : htmlFind content = none) :
    injectManifestLink content f u = generateManifestLink f u ++ '\n' :: content := by
  unfold injectManifestLink
  simp [hfound, hh, hm]

theorem inject_stable {f : List Char} {u : Bool} {A R : List Char}
    (hf : '>' ∉ normalizePath f) (hd : '$' ∉ generateManifestLink f u)
    (hA : noScanMatch A (generateManifestLink f u ++ R))
    (hR : hasLinkTag R = false) :
    injectManifestLink (A ++ (generateManifestLink f u ++ R)) f u
      = A ++ (generateManifestLink f u ++ R) := by
  have hself := linkMatchAt_self (f := f) (u := u) hf R
  have hfound : hasLinkTag (A ++ (generateManifestLink f u ++ R)) = true :=
    hasLinkTag_append_true (hasLinkTag_of_matchAt hself)
  rw [inject_eq_update hfound]
  unfold updateManifestLink replaceAllLink
  exact replaceAllGo_decomp hA hself hR hd _ [] (le_refl _)

theorem injectManifestLink_idem {t f : List Char} {u : Bool}
    (h1 : (linkMatches t).length ≤ 1) (h2 : '>' ∉ f) (h3 : '$' ∉ f) :
    injectManifestLink (injectManifestLink t f u) f u = injectManifestLink t f u := by
  have hnf : '>' ∉ normalizePath f := genLink_no_gt h2
  have hnd : '$' ∉ generateManifestLink f u := genLink_no_dollar h3 u
  cases hfound : hasLinkTag t with
  | true =>
    obtain ⟨m, ms, hms⟩ : ∃ m ms, linkMatches t = m :: ms := by
      cases hmt : linkMatches t with
      | nil => exact absurd hmt (linkMatches_ne_nil_of_has hfound)
      | cons m ms => exact ⟨m, ms, rfl⟩
    have hms0 : ms = [] := by
      rw [hms] at h1
      simpa using h1
    subst hms0
    obtain ⟨A, R, hteq, hA, hmAt, hRms⟩ := linkMatches_decomp hms
    have hRfalse : hasLinkTag R = false := by
      cases hhR : hasLinkTag R with
      | false => rfl
      | true => exact absurd hRms (linkMatches_ne_nil_of_has hhR)
    have hstep1 : injectManifestLink t f u = A ++ (generateManifestLink f u ++ R) := by
      rw [inject_eq_update hfound]
      unfold updateManifestLink replaceAllLink
      rw [hteq]
      exact replaceAllGo_decomp hA hmAt hRfalse hnd _ [] (le_refl _)
    have hA2 : noScanMatch A (generateManifestLink f u ++ R) := by
      refine noScanMatch_transfer hA (Or.inl ?_) ?_
      · exact List.mem_append.mpr (Or.inl (linkMatchAt_gt_mem hmAt))
      · intro st h0 h20
        obtain ⟨lt, hlt⟩ := genLink_head f u
        rw [hlt, List.cons_append]
        exact pmConsume_dead_lt h0 h20 _
    rw [hstep1]
    exact inject_stable hnf hnd hA2 hRfalse
  | false =>
    cases hhead : headFind t with
    | some p =>
      obtain ⟨a, h, b⟩ := p
      obtain ⟨hteq, hgt⟩ := headFind_decomp hhead
      have hnd2 : '$' ∉ (' ' :: ' ' ::
          (generateManifestLink f u ++ '\n' :: "</head>".data)) := by
        intro hm
        rcases List.mem_cons.mp hm with h5 | h5
        · exact absurd h5 (by decide)
        rcases List.mem_cons.mp h5 with h6 | h6
        · exact absurd h6 (by decide)
        rcases List.mem_append.mp h6 with h7 | h7
        · exact hnd h7
        rcases List.mem_cons.mp h7 with h8 | h8
        · exact absurd h8 (by decide)
        · revert h8
          decide
      have hstep1 : injectManifestLink t f u =
          (a ++ [' ', ' ']) ++
            (generateManifestLink f u ++ ('\n' :: ("</head>".data ++ b))) := by
        rw [inject_eq_head hfound hhead, expand_no_dollar hnd2]
        simp
      have hbase : noScanMatch a (h ++ b) := by
        apply noScanMatch_of_false
        rw [← hteq]
        exact hfound
      have hnsA : noScanMatch (a ++ [' ', ' '])
          (generateManifestLink f u ++ ('\n' :: ("</head>".data ++ b))) := by
        apply noScanMatch_append_build
        · refine noScanMatch_transfer hbase
            (Or.inl (List.mem_append.mpr (Or.inl hgt))) ?_
          intro st h0 h20
          obtain ⟨lt, hlt⟩ := genLink_head f u
          have hre : [' ', ' '] ++
              (generateManifestLink f u ++ ('\n' :: ("</head>".data ++ b)))
              = [' ', ' '] ++ ('<' :: (lt ++ ('\n' :: ("</head>".data ++ b)))) := by
            rw [hlt]
            simp
          rw [hre]
          exact pmConsume_dead_space (by decide) st h0 h20 _
        · exact ⟨linkMatchAt_head_ne (by decide), linkMatchAt_head_ne (by decide), trivial⟩
      have hbF : hasLinkTag b = false := by
        rw [hteq] at hfound
        exact hasLinkTag_append_false_right (hasLinkTag_append_false_right hfound)
      have hRfalse : hasLinkTag ('\n' :: ("</head>".data ++ b)) = false := by
        have hns8 : noScanMatch ('\n' :: "</head>".data) b :=
          ⟨linkMatchAt_head_ne (by decide), linkMatchAt_lt_not_l (by decide),
            linkMatchAt_head_ne (by decide), linkMatchAt_head_ne (by decide),
            linkMatchAt_head_ne (by decide), linkMatchAt_head_ne (by decide),
            linkMatchAt_head_ne (by decide), linkMatchAt_head_ne (by decide), trivial⟩
        have hres := hasLinkTag_append_of hns8 hbF
        simpa using hres
      rw [hstep1]
      exact inject_stable hnf hnd hnsA hRfalse
    | none =>
      cases hhtml : htmlFind t with
      | some p =>
        obtain ⟨a, m, b⟩ := p
        obtain ⟨hteq, hgt, ⟨t0, ht0⟩, ⟨m0, hm0⟩⟩ := htmlFind_decomp hhtml
        have hstep1 : injectManifestLink t f u =
            ((a ++ m) ++ ('\n' :: ("<head>".data ++ ['\n', ' ', ' ']))) ++
              (generateManifestLink f u ++ ('\n' :: ("</head>".data ++ b))) := by
          rw [inject_eq_html hfound hhead hhtml]
          simp
        have hbF : hasLinkTag b = false := by
          rw [hteq] at hfound
          exact hasLinkTag_append_false_right (hasLinkTag_append_false_right hfound)
        have hRfalse : hasLinkTag ('\n' :: ("</head>".data ++ b)) = false := by
          have hns8 : noScanMatch ('\n' :: "</head>".data) b :=
            ⟨linkMatchAt_head_ne (by decide), linkMatchAt_lt_not_l (by decide),
              linkMatchAt_head_ne (by decide), linkMatchAt_head_ne (by decide),
              linkMatchAt_head_ne (by decide), linkMatchAt_head_ne (by decide),
              linkMatchAt_head_ne (by decide), linkMatchAt_head_ne (by decide), trivial⟩
          have hres := hasLinkTag_append_of hns8 hbF
          simpa using hres
        have hnsA : noScanMatch
            ((a ++ m) ++ ('\n' :: ("<head>".data ++ ['\n', ' ', ' '])))
            (generateManifestLink f u ++ ('\n' :: ("</head>".data ++ b))) := by
          apply noScanMatch_append_build
          · apply noScanMatch_append_build
            · have hbase : noScanMatch a (m ++ b) := by
                apply noScanMatch_of_false
                rw [← hteq]
                exact hfound
              refine noScanMatch_transfer hbase
                (Or.inl (List.mem_append.mpr (Or.inl hgt))) ?_
              intro st h0 h20
              rw [ht0, List.cons_append]
              exact pmConsume_dead_lt h0 h20 _
            · have hbase2 : noScanMatch m b := by
                rw [hteq] at hfound
                exact noScanMatch_of_false (hasLinkTag_append_false_right hfound)
              refine noScanMatch_transfer hbase2 (Or.inr ⟨m0, hm0⟩) ?_
              intro st h0 h20
              exact pmConsume_dead_space (u := ['\n']) (by decide) st h0 h20
                (("head>".data ++ ['\n', ' ', ' ']) ++
                  (generateManifestLink f u ++ ('\n' :: ("</head>".data ++ b))))
          · exact ⟨linkMatchAt_head_ne (by decide), linkMatchAt_lt_not_l (by decide),
              linkMatchAt_head_ne (by decide), linkMatchAt_head_ne (by decide),
              linkMatchAt_head_ne (by decide), linkMatchAt_head_ne (by decide),
              linkMatchAt_head_ne (by decide), linkMatchAt_head_ne (by decide),
              linkMatchAt_head_ne (by decide), linkMatchAt_head_ne (by decide), trivial⟩
        rw [hstep1]
        exact inject_stable hnf hnd hnsA hRfalse
      | none =>
        have hstep1 : injectManifestLink t f u =
            generateManifestLink f u ++ ('\n' :: t) :=
          inject_eq_pre hfound hhead hhtml
        have hR : hasLinkTag ('\n' :: t) = false := by
          rw [hasLinkTag, linkMatchAt_head_ne (by decide)]
          simp [hfound]
        rw [hstep1]
        have hst := inject_stable (A := []) hnf hnd trivial hR
        simpa using hst

/-! Insertion-only behaviour of the injector. -/

theorem expandRepl_cons_ne {c : Char} {ts m pre post : List Char} (hc : c ≠ '$') :
    expandRepl (c :: ts) m pre post = c :: expandRepl ts m pre post := by
  cases ts with
  | nil =>
    simp only [expandRepl]
    rw [show (c == '$') = false from by simpa using hc]
    simp
  | cons d ts2 =>
    simp only [expandRepl]
    rw [show (c == '$') = false from by simpa using hc]
    simp

theorem expandRepl_dollar_other {d : Char} {ts m pre post : List Char}
    (h1 : d ≠ '$') (h2 : d ≠ '&') (h3 : d ≠ Char.ofNat 96) (h4 : d ≠ '\'') :
    expandRepl ('$' :: d :: ts) m pre post = '$' :: expandRepl (d :: ts) m pre post := by
  simp only [expandRepl]
  rw [show (d == '$') = false from by simpa using h1,
    show (d == '&') = false from by simpa using h2,
    show (d == Char.ofNat 96) = false from by simpa using h3,
    show (d == '\'') = false from by simpa using h4]
  simp

theorem expand_append_last {a : List Char} (b m pre post : List Char)
    (ha : ∀ a0, a = a0 ++ ['$'] → False) :
    expandRepl (a ++ b) m pre post = expandRepl a m pre post ++ expandRepl b m pre post := by
  suffices hgen : ∀ n a2, List.length a2 = n → (∀ a0, a2 = a0 ++ ['$'] → False) →
      expandRepl (a2 ++ b) m pre post
        = expandRepl a2 m pre post ++ expandRepl b m pre post by
    exact hgen a.length a rfl ha
  intro n
  induction n using Nat.strong_induction_on with
  | _ n ih =>
    intro a hn ha
    cases a with
    | nil => simp [expandRepl]
    | cons c as =>
      by_cases hc : c = '$'
      · subst hc
        cases as with
        | nil => exact absurd rfl (ha [])
        | cons d as2 =>
          have has2 : ∀ a0, as2 = a0 ++ ['$'] → False := by
            intro a0 he
            exact ha ('$' :: d :: a0) (by simp [he])
          have hlen2 : as2.length < n := by
            rw [← hn]
            simp only [List.length_cons]
            omega
          by_cases hd : d = '$'
          · subst hd
            show expandRepl ('$' :: '$' :: (as2 ++ b)) m pre post = _
            simp only [expandRepl]
            rw [ih as2.length hlen2 as2 rfl has2]
            simp
          · by_cases hd2 : d = '&'
            · subst hd2
              show expandRepl ('$' :: '&' :: (as2 ++ b)) m pre post = _
              simp only [expandRepl]
              rw [ih as2.length hlen2 as2 rfl has2]
              simp
            · by_cases hd3 : d = Char.ofNat 96
              · subst hd3
                show expandRepl ('$' :: Char.ofNat 96 :: (as2 ++ b)) m pre post = _
                simp only [expandRepl]
                rw [show ((Char.ofNat 96) == '$') = false from by decide,
                  show ((Char.ofNat 96) == '&') = false from by decide]
                simp only [beq_self_eq_true, if_true, Bool.false_eq_true, if_false]
                rw [ih as2.length hlen2 as2 rfl has2]
                simp
              · by_cases hd4 : d = '\''
                · subst hd4
                  show expandRepl ('$' :: '\'' :: (as2 ++ b)) m pre post = _
                  simp only [expandRepl]
                  rw [ih as2.length hlen2 as2 rfl has2]
                  simp
                · have hda : ∀ a0, (d :: as2) = a0 ++ ['$'] → False := by
                    intro a0 he
                    exact ha ('$' :: a0) (by simp [he])
                  have hlend : (d :: as2).length < n := by
                    rw [← hn]
                    simp only [List.length_cons]
                    omega
                  show expandRepl ('$' :: d :: (as2 ++ b)) m pre post
                      = expandRepl ('$' :: d :: as2) m pre post ++ expandRepl b m pre post
                  rw [expandRepl_dollar_other hd hd2 hd3 hd4,
                    expandRepl_dollar_other hd hd2 hd3 hd4]
                  rw [← List.cons_append d as2 b]
                  rw [ih (d :: as2).length hlend (d :: as2) rfl hda]
                  simp
      · have hasne : ∀ a0, as = a0 ++ ['$'] → False := by
          intro a0 he
          cases a0 with
          | nil =>
            exact ha [c] (by simp [he])
          | cons e a1 =>
            exact ha (c :: e :: a1) (by simp [he])
        have hlen : as.length < n := by
          rw [← hn]
          simp only [List.length_cons]
          omega
        rw [List.cons_append, expandRepl_cons_ne hc, expandRepl_cons_ne hc]
        rw [ih as.length hlen as rfl hasne]
        simp

theorem inject_sublist {t f : List Char} {u : Bool}
    (hno : hasLinkTag t = false)
    (hhead : ∀ a h b, headFind t = some (a, h, b) → h = "</head>".data) :
    t.Sublist (injectManifestLink t f u) := by
  cases hh : headFind t with
  | some p =>
    obtain ⟨a, h, b⟩ := p
    have hlow := hhead a h b hh
    subst hlow
    obtain ⟨hteq, _⟩ := headFind_decomp hh
    rw [inject_eq_head hno hh]
    obtain ⟨L0, hL0⟩ := genLink_last f u
    have hXlast : ∀ a0, (' ' :: ' ' :: generateManifestLink f u) = a0 ++ ['$'] → False := by
      intro a0 he
      have h1 : (' ' :: ' ' :: generateManifestLink f u) = (' ' :: ' ' :: L0) ++ ['>'] := by
        rw [hL0]
        simp
      rw [h1] at he
      have e1 : ((' ' :: ' ' :: L0) ++ ['>']).getLast? = some '>' := List.getLast?_concat _
      rw [he, List.getLast?_concat] at e1
      simp at e1
    have hshape : (' ' :: ' ' :: (generateManifestLink f u ++ '\n' :: "</head>".data))
        = (' ' :: ' ' :: generateManifestLink f u) ++ ('\n' :: "</head>".data) := by simp
    rw [hshape, expand_append_last ('\n' :: "</head>".data) "</head>".data a b hXlast,
      @expand_no_dollar ('\n' :: "</head>".data) "</head>".data a b (by decide)]
    rw [hteq]
    have hre : a ++ (expandRepl (' ' :: ' ' :: generateManifestLink f u) "</head>".data a b ++
          ('\n' :: "</head>".data)) ++ b
        = a ++ ((expandRepl (' ' :: ' ' :: generateManifestLink f u) "</head>".data a b ++
          ['\n']) ++ ("</head>".data ++ b)) := by simp
    rw [hre]
    exact (List.append_sublist_append_left a).mpr (List.sublist_append_right _ _)
  | none =>
    cases hm : htmlFind t with
    | some p =>
      obtain ⟨a, m, b⟩ := p
      obtain ⟨hteq, _, _, _⟩ := htmlFind_decomp hm
      rw [inject_eq_html hno hh hm, hteq]
      have hre : a ++ m ++ '\n' :: ("<head>".data ++ '\n' :: ' ' :: ' ' ::
            (generateManifestLink f u ++ '\n' :: ("</head>".data ++ b)))
          = a ++ (m ++ (('\n' :: ("<head>".data ++ '\n' :: ' ' :: ' ' ::
            (generateManifestLink f u ++ '\n' :: "</head>".data))) ++ b)) := by simp
      rw [hre]
      exact (List.append_sublist_append_left a).mpr
        ((List.append_sublist_append_left m).mpr (List.sublist_append_right _ _))
    | none =>
      rw [inject_eq_pre hno hh hm]
      have hre : generateManifestLink f u ++ '\n' :: t
          = (generateManifestLink f u ++ ['\n']) ++ t := by simp
      rw [hre]
      exact List.sublist_append_right _ _

/-! Lemmas about the asset existence check and the batch processor. -/

theorem validateIcons_fold (fsE : List Char → Bool) (base : List Char) :
    ∀ (l : List IconIn) (r : AssetCheckResult),
      l.foldl (validateIconsStep fsE base) r =
        ⟨r.valid && ((l.filter fun i => truthyStr i.src).all fun i =>
            fsE (pathJoin base (stripLeadSlash (i.src.getD [])))),
          r.missing ++ ((l.filter fun i => truthyStr i.src).filter fun i =>
            !fsE (pathJoin base (stripLeadSlash (i.src.getD [])))).map (fun i =>
            ⟨i.src.getD [], pathJoin base (stripLeadSlash (i.src.getD [])),
              orUnspecified i.sizes, orUnspecified i.type⟩),
          r.checked + (l.filter fun i => truthyStr i.src).length,
          r.checkedFiles ++ (l.filter fun i => truthyStr i.src).map (fun i =>
            ⟨i.src.getD [], pathJoin base (stripLeadSlash (i.src.getD [])),
              orUnspecified i.sizes, orUnspecified i.type,
              fsE (pathJoin base (stripLeadSlash (i.src.getD [])))⟩)⟩ := by
  intro l
  induction l with
  | nil =>
    intro r
    cases r
    simp
  | cons i l ih =>
    intro r
    rw [List.foldl_cons]
    cases htr : truthyStr i.src with
    | false =>
      have hstep : validateIconsStep fsE base r i = r := by
        unfold validateIconsStep
        rw [htr]
        simp
      rw [hstep, ih r]
      simp [List.filter_cons, htr]
    | true =>
      cases hex : fsE (pathJoin base (stripLeadSlash (i.src.getD []))) with
      | true =>
        have hstep : validateIconsStep fsE base r i =
            { r with checked := r.checked + 1
                     checkedFiles := r.checkedFiles ++
                       [⟨i.src.getD [], pathJoin base (stripLeadSlash (i.src.getD [])),
                         orUnspecified i.sizes, orUnspecified i.type, true⟩] } := by
          simp [validateIconsStep, htr, hex]
        rw [hstep, ih]
        simp [List.filter_cons, htr, hex]
        omega
      | false =>
        have hstep : validateIconsStep fsE base r i =
            { r with valid := false
                     checked := r.checked + 1
                     checkedFiles := r.checkedFiles ++
                       [⟨i.src.getD [], pathJoin base (stripLeadSlash (i.src.getD [])),
                         orUnspecified i.sizes, orUnspecified i.type, false⟩]
                     missing := r.missing ++
                       [⟨i.src.getD [], pathJoin base (stripLeadSlash (i.src.getD [])),
                         orUnspecified i.sizes, orUnspecified i.type⟩] } := by
          simp [validateIconsStep, htr, hex]
        rw [hstep, ih]
        simp [List.filter_cons, htr, hex]
        omega

theorem mergeResults_empty_left (b : PageResults) : mergeResults emptyResults b = b := by
  cases b
  simp [mergeResults, emptyResults]

theorem mergeResults_assoc (a b c : PageResults) :
    mergeResults (mergeResults a b) c = mergeResults a (mergeResults b c) := by
  simp [mergeResults]
  omega

theorem batchEntries_shift (fs : FS) (dirPath : List Char) (exts : List (List Char))
    (filename : List Char) (useCredentials : Bool) :
    ∀ (l : List (List Char)) (r : PageResults),
      l.foldl (fun acc f2 =>
          mergeResults acc (handleEntry fs dirPath exts filename useCredentials f2)) r
        = mergeResults r (batchEntries fs dirPath exts filename useCredentials l) := by
  intro l
  induction l with
  | nil =>
    intro r
    unfold batchEntries
    simp [mergeResults, emptyResults]
  | cons e l ih =>
    intro r
    rw [List.foldl_cons, ih]
    unfold batchEntries
    rw [List.foldl_cons, ih (mergeResults emptyResults _), mergeResults_empty_left,
      mergeResults_assoc]
    rfl

theorem batchEntries_append (fs : FS) (dirPath : List Char) (exts : List (List Char))
    (filename : List Char) (useCredentials : Bool) (l1 l2 : List (List Char)) :
    batchEntries fs dirPath exts filename useCredentials (l1 ++ l2)
      = mergeResults (batchEntries fs dirPath exts filename useCredentials l1)
          (batchEntries fs dirPath exts filename useCredentials l2) := by
  unfold batchEntries
  rw [List.foldl_append, batchEntries_shift]
  rfl

theorem batchEntries_singleton (fs : FS) (dirPath : List Char) (exts : List (List Char))
    (filename : List Char) (useCredentials : Bool) (e : List Char) :
    batchEntries fs dirPath exts filename useCredentials [e]
      = handleEntry fs dirPath exts filename useCredentials e := by
  unfold batchEntries
  rw [List.foldl_cons, List.foldl_nil, mergeResults_empty_left]

theorem handleEntry_error (fs : FS) (dirPath : List Char) (exts : List (List Char))
    (filename : List Char) (useCredentials : Bool) (e : List Char) (msg : List Char)
    (hstat : fs.statIsDir (pathJoin dirPath e) = .ok false)
    (hext : exts.contains (extnameLower e) = true)
    (hfail : fs.readFile (pathJoin dirPath e) = .error msg ∨
      (∃ content, fs.readFile (pathJoin dirPath e) = .ok content ∧
        injectManifestLink content filename useCredentials ≠ content ∧
        fs.writeFile (pathJoin dirPath e)
          (injectManifestLink content filename useCredentials) = .error msg)) :
    handleEntry fs dirPath exts filename useCredentials e
      = errDelta (pathJoin dirPath e) msg := by
  simp only [handleEntry, hstat, hext, Bool.not_true, Bool.false_eq_true, if_false]
  rcases hfail with h1 | ⟨content, h1, h2, h3⟩
  · simp [h1]
  · simp [h1, h3, show (injectManifestLink content filename useCredentials == content) = false
      from by simpa using h2]

/-- The IconPathResolver of `processIcons` computes exactly the join the
amended claim words. -/
theorem normalizeIconPath_eq_spec (s d : List Char) :
    normalizeIconPath s d = iconPathSpec s d := by
  unfold normalizeIconPath iconPathSpec
  cases he : (jsTrim s).isEmpty with
  | true =>
    have h0 : jsTrim s = [] := by simpa using he
    simp [he, h0]
  | false => simp [he]

/-! The claims. -/

/-- C1 (amended): for every page text containing at most one reference tag
and every manifest filename free of the characters the regex and the
replacement machinery treat specially (no `>` and no dollar sign), the link
upsert is idempotent. -/
theorem C1_idempotent {t f : List Char} {u : Bool}
    (h1 : (linkMatches t).length ≤ 1) (h2 : '>' ∉ f) (h3 : '$' ∉ f) :
    injectManifestLink (injectManifestLink t f u) f u = injectManifestLink t f u :=
  injectManifestLink_idem h1 h2 h3

theorem C1_witness :
    injectManifestLink (injectManifestLink "<head></head>".data "m.json".data false)
        "m.json".data false
      = injectManifestLink "<head></head>".data "m.json".data false :=
  C1_idempotent (by decide) (by decide) (by decide)

/-- C1 counterexample to the frozen claim: the empty page contains no
reference tag at all, yet with the filename `a>b` a second application
changes the text again (the generated tag's href closes the regex match
early). -/
theorem C1_counterexample :
    injectManifestLink (injectManifestLink [] "a>b".data false) "a>b".data false
      ≠ injectManifestLink [] "a>b".data false := by decide

/-- C2 (amended): the asset existence check takes no icons-directory input;
for each icon with a truthy `src`, the tested path joins `baseDir` directly
with the source stripped of one leading separator, icons without `src` are
skipped entirely, and `valid` is true iff `missing` is empty. -/
theorem C2_asset_check (fsE : List Char → Bool) (l : List IconIn) (base : List Char) :
    (validateIcons fsE (some l) base).checkedFiles
        = (l.filter fun i => truthyStr i.src).map (fun i =>
            ⟨i.src.getD [], pathJoin base (stripLeadSlash (i.src.getD [])),
              orUnspecified i.sizes, orUnspecified i.type,
              fsE (pathJoin base (stripLeadSlash (i.src.getD [])))⟩)
    ∧ (validateIcons fsE (some l) base).checked
        = (l.filter fun i => truthyStr i.src).length
    ∧ (validateIcons fsE (some l) base).missing
        = ((l.filter fun i => truthyStr i.src).filter fun i =>
            !fsE (pathJoin base (stripLeadSlash (i.src.getD [])))).map (fun i =>
            ⟨i.src.getD [], pathJoin base (stripLeadSlash (i.src.getD [])),
              orUnspecified i.sizes, orUnspecified i.type⟩)
    ∧ ((validateIcons fsE (some l) base).valid = true ↔
        (validateIcons fsE (some l) base).missing = []) := by
  have hmain : validateIcons fsE (some l) base =
      ⟨(l.filter fun i => truthyStr i.src).all (fun i =>
          fsE (pathJoin base (stripLeadSlash (i.src.getD [])))),
        ((l.filter fun i => truthyStr i.src).filter fun i =>
          !fsE (pathJoin base (stripLeadSlash (i.src.getD [])))).map (fun i =>
          ⟨i.src.getD [], pathJoin base (stripLeadSlash (i.src.getD [])),
            orUnspecified i.sizes, orUnspecified i.type⟩),
        (l.filter fun i => truthyStr i.src).length,
        (l.filter fun i => truthyStr i.src).map (fun i =>
          ⟨i.src.getD [], pathJoin base (stripLeadSlash (i.src.getD [])),
            orUnspecified i.sizes, orUnspecified i.type,
            fsE (pathJoin base (stripLeadSlash (i.src.getD [])))⟩)⟩ := by
    unfold validateIcons
    cases hl : l.isEmpty with
    | true =>
      have h0 : l = [] := by simpa using hl
      subst h0
      simp
    | false =>
      simp only [hl, Bool.false_eq_true, if_false]
      rw [validateIcons_fold]
      simp
  rw [hmain]
  refine ⟨rfl, rfl, rfl, ?_⟩
  simp [List.all_eq_true, List.map_eq_nil_iff, List.filter_eq_nil_iff]
  constructor
  · intro h a ha hf
    rcases h a ha with h1 | h1
    · exact h1
    · simp [h1] at hf
  · intro h x hx
    cases hfe : fsE (pathJoin base (stripLeadSlash (x.src.getD []))) with
    | true => exact Or.inr rfl
    | false => exact Or.inl (h x hx hfe)

/-- C2 counterexample to the frozen claim: with base directory `base`,
icons directory `icons` and the single icon `/a.png`, the tested path is
`base/a.png`, not the three-way join `base/icons/a.png`. -/
theorem C2_counterexample :
    (validateIcons (fun _ => true)
        (some [⟨some "/a.png".data, none, none, none⟩]) "base".data).checkedFiles
      = [⟨"/a.png".data, "base/a.png".data, "unspecified".data, "unspecified".data, true⟩]
    ∧ "base/a.png".data
      ≠ pathJoin (pathJoin "base".data "icons".data) (stripLeadSlash "/a.png".data) := by
  decide

/-- C3: when the target directory does not exist, `processPageFiles` returns
the zeroed result record and records no error. -/
theorem C3_missing_directory (fs : FS) (dirPath : List Char) (exts : List (List Char))
    (filename : List Char) (useCredentials : Bool)
    (h : fs.existsSync dirPath = false) :
    processPageFiles fs dirPath exts filename useCredentials = ⟨0, 0, [], [], []⟩ := by
  simp [processPageFiles, h, emptyResults]

theorem C3_witness :
    processPageFiles
        ⟨fun _ => false, fun _ => Except.error [], fun _ => Except.error [],
          fun _ => Except.error [], fun _ _ => Except.error []⟩
        "pages".data ["html".data] "m.json".data false
      = ⟨0, 0, [], [], []⟩ :=
  C3_missing_directory _ _ _ _ _ rfl

/-- C4: an absent or invalid orientation value is assembled as the fixed
default `any` (the key is present); an allowed value in any letter-casing is
assembled as its lowercasing. -/
theorem C4_orientation (cfg : ManifestConfig) (iconsDir : List Char) :
    ((cfg.orientation = none ∨
        ∃ v, cfg.orientation = some v ∧ jsLowerStr v ∉ orientations) →
      (processManifest cfg iconsDir).orientation = some "any".data)
    ∧ (∀ v, cfg.orientation = some v → jsLowerStr v ∈ orientations →
      (processManifest cfg iconsDir).orientation = some (jsLowerStr v)) := by
  constructor
  · rintro (h | ⟨v, hv, hnm⟩)
    · simp [processManifest, validateEnum, h]
    · have hc : orientations.contains (jsLowerStr v) = false := by
        rw [← Bool.not_eq_true]
        intro hcc
        exact hnm (List.mem_of_elem_eq_true hcc)
      simp [processManifest, validateEnum, hv, hc]
      intro _ hmm
      exact absurd hmm hnm
  · intro v hv hmem
    have hvne : v.isEmpty = false := by
      cases v with
      | nil => exact absurd hmem (by decide)
      | cons c cs => rfl
    have hc : orientations.contains (jsLowerStr v) = true :=
      List.elem_eq_true_of_mem hmem
    simp [processManifest, validateEnum, hv, hvne, hc]
    intro hmm
    exact absurd hmem hmm

/-- C5: a dir value that is absent, or whose lowercasing is not an allowed
text direction, leaves the assembled manifest without a dir key; an allowed
value in any letter-casing is assembled as its lowercasing. -/
theorem C5_dir (cfg : ManifestConfig) (iconsDir : List Char) :
    ((cfg.dir = none ∨
        ∃ v, cfg.dir = some v ∧ jsLowerStr v ∉ textDirections) →
      (processManifest cfg iconsDir).dir = none)
    ∧ (∀ v, cfg.dir = some v → jsLowerStr v ∈ textDirections →
      (processManifest cfg iconsDir).dir = some (jsLowerStr v)) := by
  constructor
  · rintro (h | ⟨v, hv, hnm⟩)
    · simp [processManifest, h]
    · have hc : textDirections.contains (jsLowerStr v) = false := by
        rw [← Bool.not_eq_true]
        intro hcc
        exact hnm (List.mem_of_elem_eq_true hcc)
      simp [processManifest, validateEnum, hv, hc]
      intro _ hmm
      exact absurd hmm hnm
  · intro v hv hmem
    have hvne : v.isEmpty = false := by
      cases v with
      | nil => exact absurd hmem (by decide)
      | cons c cs => rfl
    have hc : textDirections.contains (jsLowerStr v) = true :=
      List.elem_eq_true_of_mem hmem
    simp [processManifest, validateEnum, hv, hvne, hc]
    exact hmem

/-- C6 (amended): icon normalization drops exactly the entries whose `src`
is absent or the empty string, and every surviving entry's emitted `src` is
the IconPathResolver join of the declared path with the prefix (which is the
empty string when the declared path trims to nothing). -/
theorem C6_icon_src (l : List IconIn) (dir : List Char) :
    (processIcons l dir).map (fun i => i.src)
      = (l.filter fun i => truthyStr i.src).map
          (fun i => iconPathSpec (i.src.getD []) dir) := by
  unfold processIcons
  rw [List.map_map]
  exact List.map_congr_left fun i _ => by
    simp [Function.comp, normalizeIconPath_eq_spec]

/-- C6 counterexample to the frozen claim: a whitespace-only `src` is truthy,
so the entry survives and is emitted with an empty `src`. -/
theorem C6_counterexample :
    (processIcons [⟨some "   ".data, none, none, none⟩] "icons".data).map (fun i => i.src)
      = [[]] := by decide

/-- C7: a shortcut survives normalization iff `name` and `url` are both
present with non-empty trims, and every emitted shortcut has a non-empty
(trimmed) name and url. -/
theorem C7_shortcut_survival (l : List ShortcutIn) (dir : List Char) :
    (∀ o ∈ processShortcuts l dir, o.name ≠ [] ∧ o.url ≠ [])
    ∧ processShortcuts l dir
        = (l.filter claimShortcutKeep).map (fun s =>
            ⟨safeString s.name, safeString s.url,
              match s.short_name with
              | some v => if v.isEmpty then none else some (jsTrim v)
              | none => none,
              match s.description with
              | some v => if v.isEmpty then none else some (jsTrim v)
              | none => none,
              s.icons.map fun li => processIcons li dir⟩) := by
  constructor
  · intro o ho
    unfold processShortcuts at ho
    rw [List.mem_map] at ho
    obtain ⟨s, hs, rfl⟩ := ho
    rw [List.mem_filter] at hs
    obtain ⟨-, hp⟩ := hs
    cases hn : s.name with
    | none => rw [hn] at hp; exact absurd hp (by simp)
    | some n =>
      cases hu : s.url with
      | none => rw [hn, hu] at hp; exact absurd hp (by simp)
      | some u =>
        rw [hn, hu] at hp
        simp only [Bool.and_eq_true, Bool.not_eq_true'] at hp
        constructor
        · simp only [safeString, hn]
          intro he
          rw [he] at hp
          simp at hp
        · simp only [safeString, hu]
          intro he
          rw [he] at hp
          simp at hp
  · unfold processShortcuts
    have hfe : l.filter (fun s =>
        match s.name, s.url with
        | some n, some u => !(jsTrim n).isEmpty && !(jsTrim u).isEmpty
        | _, _ => false) = l.filter claimShortcutKeep :=
      List.filter_congr fun s _ => by
        cases hn : s.name <;> cases hu : s.url <;> simp [claimShortcutKeep, hn, hu]
    rw [hfe]

/-- C8 (amended): the generated reference tag is the canonical text with the
*normalized* filename (backslashes replaced by forward slashes) substituted,
and its href value starts with exactly one separator iff the normalized
filename does not itself start with one. -/
theorem C8_reference_tag (f : List Char) (u : Bool) :
    generateManifestLink f u = claimReferenceTag (normalizePath f) u
    ∧ (hrefValue f).head? = some '/'
    ∧ (((hrefValue f).takeWhile fun c => c == '/').length = 1 ↔
        (normalizePath f).head? ≠ some '/') := by
  have h1 : "<link rel=\"manifest\" href=\"/".data
      = "<link rel=\"manifest\" href=\"".data ++ ['/'] := by decide
  have h2 : ("\"".data : List Char) = ['"'] := rfl
  have h3 : (">".data : List Char) = ['>'] := rfl
  refine ⟨?_, rfl, ?_⟩
  · cases u <;>
      simp [generateManifestLink, claimReferenceTag, hrefValue, h1, h2, h3]
  · have htw : ((hrefValue f).takeWhile fun c => c == '/')
        = '/' :: ((normalizePath f).takeWhile fun c => c == '/') := by
      simp [hrefValue, List.takeWhile_cons]
    have hiff : (((normalizePath f).takeWhile fun c => c == '/') = []) ↔
        (normalizePath f).head? ≠ some '/' := by
      cases hnf : normalizePath f with
      | nil => simp
      | cons d ds =>
        cases hd : (d == '/') with
        | true =>
          have hde : d = '/' := by simpa using hd
          simp [List.takeWhile_cons, hd, hde]
        | false =>
          have hde : d ≠ '/' := by simpa using hd
          simp [List.takeWhile_cons, hd, hde]
    rw [htw]
    simp only [List.length_cons, Nat.add_left_eq_self, List.length_eq_zero]
    exact hiff

/-- C8 counterexample to the frozen claim: for the filename consisting of a
backslash and `a`, the generated tag is not the claimed verbatim text, and
the href value starts with two separators. -/
theorem C8_counterexample :
    generateManifestLink ['\\', 'a'] false ≠ claimReferenceTag ['\\', 'a'] false
    ∧ (((hrefValue ['\\', 'a']).takeWhile fun c => c == '/').length = 1 → False) := by
  decide

/-- C9: a file whose stat, read or write throws contributes exactly one
error record and one `details` record carrying its path and the exception
message, while every other entry of the traversal is still processed. -/
theorem C9_partial_failure (fs : FS) (dirPath : List Char) (exts : List (List Char))
    (filename : List Char) (useCredentials : Bool) (pre post : List (List Char))
    (e msg : List Char)
    (hstat : fs.statIsDir (pathJoin dirPath e) = Except.ok false)
    (hext : exts.contains (extnameLower e) = true)
    (hfail : fs.readFile (pathJoin dirPath e) = Except.error msg ∨
      (∃ content, fs.readFile (pathJoin dirPath e) = Except.ok content ∧
        injectManifestLink content filename useCredentials ≠ content ∧
        fs.writeFile (pathJoin dirPath e)
          (injectManifestLink content filename useCredentials) = Except.error msg)) :
    batchEntries fs dirPath exts filename useCredentials (pre ++ e :: post)
      = mergeResults (batchEntries fs dirPath exts filename useCredentials pre)
          (mergeResults
            ⟨0, 0, [(pathJoin dirPath e, msg)], [],
              [⟨pathJoin dirPath e, "error".data, msg⟩]⟩
            (batchEntries fs dirPath exts filename useCredentials post)) := by
  have hsplit : pre ++ e :: post = (pre ++ [e]) ++ post := by simp
  rw [hsplit, batchEntries_append, batchEntries_append, batchEntries_singleton,
    handleEntry_error fs dirPath exts filename useCredentials e msg hstat hext hfail,
    mergeResults_assoc]
  rfl

theorem C9_witness :
    batchEntries
        ⟨fun _ => true, fun _ => Except.ok [], fun _ => Except.ok false,
          fun _ => Except.error "boom".data, fun _ _ => Except.ok ()⟩
        "pages".data ["html".data] "m.json".data false
        ([] ++ "a.html".data :: ["b.html".data])
      = mergeResults
          (batchEntries
            ⟨fun _ => true, fun _ => Except.ok [], fun _ => Except.ok false,
              fun _ => Except.error "boom".data, fun _ _ => Except.ok ()⟩
            "pages".data ["html".data] "m.json".data false [])
          (mergeResults
            ⟨0, 0, [(pathJoin "pages".data "a.html".data, "boom".data)], [],
              [⟨pathJoin "pages".data "a.html".data, "error".data, "boom".data⟩]⟩
            (batchEntries
              ⟨fun _ => true, fun _ => Except.ok [], fun _ => Except.ok false,
                fun _ => Except.error "boom".data, fun _ _ => Except.ok ()⟩
              "pages".data ["html".data] "m.json".data false ["b.html".data])) :=
  C9_partial_failure _ "pages".data ["html".data] "m.json".data false [] ["b.html".data]
    "a.html".data "boom".data rfl (by decide) (Or.inl rfl)

/-- C10 (amended): when the text contains no reference tag and any closing
head marker it contains is the lowercase `</head>`, the upsert only inserts:
the original text is a subsequence of the output under all three insertion
strategies. -/
theorem C10_insert_only {t f : List Char} {u : Bool}
    (hno : hasLinkTag t = false)
    (hhead : ∀ a h b, headFind t = some (a, h, b) → h = "</head>".data) :
    t.Sublist (injectManifestLink t f u) :=
  inject_sublist hno hhead

theorem C10_witness :
    "hello".data.Sublist (injectManifestLink "hello".data "m.json".data false) :=
  C10_insert_only (by decide)
    (by
      intro a h b hh
      rw [show headFind "hello".data = none from by decide] at hh
      exact Option.noConfusion hh)

/-- C10 counterexample to the frozen claim: the page `</HEAD>` contains no
reference tag, yet its uppercase head marker is replaced by a lowercase one,
so the original text is not a subsequence of the output (the output has no
uppercase H at all). -/
theorem C10_counterexample :
    ¬ "</HEAD>".data.Sublist (injectManifestLink "</HEAD>".data "m.json".data false) :=
  fun h => absurd (h.count_le 'H') (by decide)

end Bos
